import Mathlib

set_option maxRecDepth 8192

/-!
Shallow embedding of the insurance template auto-filler pipeline
(source: `AutoInsureFill_AI.py`): template field scanning, per-page PDF
text concatenation, JSON block extraction and repair, JSON parsing with
null coercion, the multi-source merge, and placeholder filling, together
with proofs about the specified behaviour.
-/

/-- Characters admitted by the field-name regex class (A-Z, 0-9 and the
underscore). -/
def isFieldChar (c : Char) : Bool :=
  (decide ('A' ≤ c) && decide (c ≤ 'Z')) ||
  (decide ('0' ≤ c) && decide (c ≤ '9')) || c == '_'

/-- Python substring membership (the `in` operator on strings), on
character lists: true when `pat` occurs contiguously in the scanned list. -/
def occursIn (pat : List Char) : List Char → Bool
  | [] => pat.isEmpty
  | c :: rest => pat.isPrefixOf (c :: rest) || occursIn pat rest

/-- JSON values as produced by `json.loads`.  Numbers are modelled as
integers; fractional and exponent forms are outside the embedding (no
claim exercises them).  Objects carry their key-value pairs in insertion
order, mirroring a Python dict. -/
inductive JsonVal where
  | null
  | bool (b : Bool)
  | num (n : Int)
  | str (s : String)
  | arr (elems : List JsonVal)
  | obj (pairs : List (String × JsonVal))

/-- Python equality test of a decoded value against the empty string:
only the empty JSON string compares equal to `""`. -/
def JsonVal.isEmptyStr : JsonVal → Bool
  | .str s => s == ""
  | _ => false

/-- Is a decoded value a JSON string? -/
def JsonVal.isStr : JsonVal → Bool
  | .str _ => true
  | _ => false

mutual

/-- Python `repr` of a JSON-decoded value, as used by `str()` on the
elements of containers.  Escaping inside nested string reprs is not
modelled; no claim exercises it. -/
def pyRepr : JsonVal → String
  | .null => "None"
  | .bool true => "True"
  | .bool false => "False"
  | .num n => toString n
  | .str s => "\x27" ++ s ++ "\x27"
  | .arr xs => "[" ++ pyReprElems xs ++ "]"
  | .obj kvs => "\x7b" ++ pyReprPairs kvs ++ "\x7d"

/-- Comma-separated reprs of the elements of a Python list. -/
def pyReprElems : List JsonVal → String
  | [] => ""
  | [x] => pyRepr x
  | x :: y :: xs => pyRepr x ++ ", " ++ pyReprElems (y :: xs)

/-- Comma-separated `key: value` reprs of the items of a Python dict. -/
def pyReprPairs : List (String × JsonVal) → String
  | [] => ""
  | [(k, v)] => "\x27" ++ k ++ "\x27: " ++ pyRepr v
  | (k, v) :: q :: ps => "\x27" ++ k ++ "\x27: " ++ pyRepr v ++ ", " ++ pyReprPairs (q :: ps)

end

/-- Python `str()` of a JSON-decoded value, as applied by the filler to
each substituted value. -/
def pyStr : JsonVal → String
  | .str s => s
  | v => pyRepr v

/-- Python `str.replace` on character lists, fuelled by list length:
replaces every left-to-right non-overlapping occurrence of the non-empty
pattern `p :: ps` by `rep`.  The replacement text is not rescanned. -/
def replaceAllAux (p : Char) (ps rep : List Char) : Nat → List Char → List Char
  | _, [] => []
  | 0, l => l
  | fuel + 1, c :: rest =>
    if (p :: ps).isPrefixOf (c :: rest) then
      rep ++ replaceAllAux p ps rep fuel (rest.drop ps.length)
    else
      c :: replaceAllAux p ps rep fuel rest

/-- Python `str.replace` on strings.  The patterns used by the program
are bracketed placeholders and hence never empty; an empty pattern is
mapped to the identity. -/
def pyReplace (s pat rep : String) : String :=
  match pat.data with
  | [] => s
  | p :: ps => String.mk (replaceAllAux p ps rep.data s.data.length s.data)

/-- Python substring membership on strings (`needle in hay`). -/
def strIn (needle hay : String) : Bool :=
  occursIn needle.data hay.data

/-- The placeholder text looked up by the filler for a field key. -/
def placeholderOf (k : String) : String := "[" ++ k ++ "]"

/-- The per-paragraph / per-cell body of `fill_template`: fold over the
key-value pairs in dict order, replacing every occurrence of each
present placeholder by the `str()` of its value. -/
def fillText (kvs : List (String × JsonVal)) (text : String) : String :=
  kvs.foldl
    (fun t p =>
      let ph := placeholderOf p.1
      if strIn ph t then pyReplace t ph (pyStr p.2) else t)
    text

/-- A docx document as the program sees it: paragraph texts, plus tables
given as rows of cell texts. -/
structure Docx where
  paragraphs : List String
  tables : List (List (List String))

/-- The body of `fill_template`: every paragraph text and every table
cell text is rewritten by `fillText`; nothing else changes. -/
def fill_template (doc : Docx) (kvs : List (String × JsonVal)) : Docx :=
  { paragraphs := doc.paragraphs.map (fillText kvs),
    tables := doc.tables.map (fun t => t.map (fun row => row.map (fillText kvs))) }

/-- One pass of `re.findall` for the bracketed-field pattern: at each
position where an opening bracket is followed by a non-empty run of
field characters and a closing bracket, record the run.  A matched token
contains no opening bracket after its first character, so this
per-character scan yields exactly the non-overlapping regex matches. -/
def findFieldsAux : List Char → List String
  | [] => []
  | c :: rest =>
    if c = '[' then
      match rest.takeWhile isFieldChar, rest.dropWhile isFieldChar with
      | r :: rs, b :: _ =>
        if b = ']' then String.mk (r :: rs) :: findFieldsAux rest
        else findFieldsAux rest
      | _, _ => findFieldsAux rest
    else findFieldsAux rest

/-- Field-name matches of one text. -/
def findFields (s : String) : List String := findFieldsAux s.data

/-- Lexicographic code-point comparison of character lists, as Python
compares strings. -/
def strLeChars : List Char → List Char → Bool
  | [], _ => true
  | _ :: _, [] => false
  | a :: as, b :: bs => if a = b then strLeChars as bs else decide (a < b)

/-- Python string comparison (at most), by code points. -/
def strLeB (a b : String) : Bool := strLeChars a.data b.data

/-- The Prop form of `strLeB`, used as the sorting relation. -/
def strLe (a b : String) : Prop := strLeB a b = true

instance : DecidableRel strLe := fun a b => instDecidableEqBool (strLeB a b) true

/-- All table-cell texts of a document, in scan order. -/
def cellTexts (doc : Docx) : List String :=
  (doc.tables.map (fun t => t.flatten)).flatten

/-- The raw field-name matches of a document: paragraphs first, then
table cells, as `extract_template_fields` scans them. -/
def allMatches (doc : Docx) : List String :=
  (doc.paragraphs.map findFields).flatten ++ ((cellTexts doc).map findFields).flatten

/-- The body of `extract_template_fields`: the sorted list of the
distinct field names found in paragraph and table-cell texts. -/
def extract_template_fields (doc : Docx) : List String :=
  List.insertionSort strLe (allMatches doc).dedup

/-- One step of the page loop of `extract_text_from_pdf`: a page whose
`page.extract_text()` result is truthy appends its text and a newline. -/
def pdfStep (acc : String) (p : Option String) : String :=
  match p with
  | some t => if t = "" then acc else acc ++ t ++ "\n"
  | none => acc

/-- The body of `extract_text_from_pdf`: pages are represented by their
`page.extract_text()` results (`none` for an extraction failure); each
page with truthy text contributes its text followed by a newline. -/
def extract_text_from_pdf (pages : List (Option String)) : String :=
  pages.foldl pdfStep ""

/-- The regex class backslash-s of a Python 3 str pattern
(Py_UNICODE_ISSPACE): the six ASCII escapes, the ASCII separators
x1c through x1f, next line x85, no-break space xa0, ogham space mark
u1680, the en-quad through hair-space block u2000 through u200a, the
line and paragraph separators u2028 and u2029, narrow no-break space
u202f, medium mathematical space u205f, and ideographic space u3000. -/
def isPySpace (c : Char) : Bool :=
  c == ' ' || c == '\t' || c == '\n' || c == '\r' || c == '\x0b' || c == '\x0c' ||
  (decide ('\x1c' ≤ c) && decide (c ≤ '\x1f')) ||
  c == '\x85' || c == '\xa0' || c == '\u1680' ||
  (decide ('\u2000' ≤ c) && decide (c ≤ '\u200a')) ||
  c == '\u2028' || c == '\u2029' || c == '\u202f' || c == '\u205f' || c == '\u3000'

/-- The comment stripper as a two-state scanner, equivalent to
non-overlapping substitution of the slash-slash-to-end-of-line pattern
by the empty string: in comment mode every character up to but excluding
the next newline is dropped. -/
def stripLC : Bool → List Char → List Char
  | _, [] => []
  | true, c :: rest => if c = '\n' then c :: stripLC false rest else stripLC true rest
  | false, c :: rest =>
    if c = '/' then
      match rest with
      | r :: _ => if r = '/' then stripLC true rest else c :: stripLC false rest
      | [] => [c]
    else c :: stripLC false rest

/-- `re.sub` removing line comments from the JSON block. -/
def stripLineComments (l : List Char) : List Char := stripLC false l

/-- The trailing-comma stripper as a scanner equivalent to
non-overlapping substitution of comma-whitespace-closing-bracket by the
bracket alone: `pending` holds a comma and the whitespace after it whose
fate is still undecided. -/
def stripTC (pending : List Char) : List Char → List Char
  | [] => pending
  | c :: rest =>
    match pending with
    | [] =>
      if c = ',' then stripTC [c] rest
      else c :: stripTC [] rest
    | _ :: _ =>
      if c = '\x7d' ∨ c = ']' then c :: stripTC [] rest
      else if isPySpace c then stripTC (pending ++ [c]) rest
      else if c = ',' then pending ++ stripTC [c] rest
      else pending ++ c :: stripTC [] rest

/-- `re.sub` removing trailing commas before a closing brace or bracket. -/
def stripTrailingCommas (l : List Char) : List Char := stripTC [] l

/-- The two-step sanitizer applied to the extracted JSON block. -/
def sanitizeJson (l : List Char) : List Char :=
  stripTrailingCommas (stripLineComments l)

/-- Does the list contain two consecutive slashes? -/
def hasDoubleSlash : List Char → Bool
  | [] => false
  | c :: rest =>
    (c == '/' && (match rest with | r :: _ => r == '/' | [] => false)) ||
      hasDoubleSlash rest

/-- Does the list contain a comma followed by whitespace and then a
closing brace or bracket? -/
def hasCommaClose : List Char → Bool
  | [] => false
  | c :: rest =>
    (c == ',' && (match rest.dropWhile isPySpace with
                  | b :: _ => b == '\x7d' || b == ']'
                  | [] => false)) ||
      hasCommaClose rest

/-- `re.search` for the greedy brace-to-brace pattern: the span from the
first opening brace to the last closing brace after it, if any. -/
def extractJsonSpan (s : List Char) : Option (List Char) :=
  match s.dropWhile (fun c => c != '\x7b') with
  | [] => none
  | b :: afterBrace =>
    match afterBrace.reverse.dropWhile (fun c => c != '\x7d') with
    | [] => none
    | closeRev => some (b :: closeRev.reverse)

/-- Lookup in a Python dict modelled as an insertion-ordered association
list. -/
def dictGet : List (String × JsonVal) → String → Option JsonVal
  | [], _ => none
  | (k', v) :: rest, k => if k' = k then some v else dictGet rest k

/-- Python dict assignment `d[k] = v`: an existing key keeps its
position and receives the new value; a new key is appended. -/
def dictInsert : List (String × JsonVal) → String → JsonVal → List (String × JsonVal)
  | [], k, v => [(k, v)]
  | (k', v') :: rest, k, v =>
    if k' = k then (k', v) :: rest else (k', v') :: dictInsert rest k v

/-- JSON whitespace accepted by `json.loads` between tokens. -/
def isJsonWs (c : Char) : Bool := c == ' ' || c == '\t' || c == '\n' || c == '\r'

/-- Hexadecimal digit value. -/
def hexVal (c : Char) : Option Nat :=
  if decide ('0' ≤ c) && decide (c ≤ '9') then some (c.toNat - '0'.toNat)
  else if decide ('a' ≤ c) && decide (c ≤ 'f') then some (c.toNat - 'a'.toNat + 10)
  else if decide ('A' ≤ c) && decide (c ≤ 'F') then some (c.toNat - 'A'.toNat + 10)
  else none

/-- Body of a JSON string literal after the opening quote, with strict
control-character handling and the standard escapes.  Unicode escapes
denoting surrogate halves are rejected rather than paired; no claim
exercises them. -/
def parseStringBody : List Char → List Char → Option (String × List Char)
  | [], _ => none
  | c :: rest, acc =>
    if c = '"' then some (String.mk acc.reverse, rest)
    else if c = '\\' then
      match rest with
      | [] => none
      | e :: rest2 =>
        if e = '"' then parseStringBody rest2 ('"' :: acc)
        else if e = '\\' then parseStringBody rest2 ('\\' :: acc)
        else if e = '/' then parseStringBody rest2 ('/' :: acc)
        else if e = 'b' then parseStringBody rest2 ('\x08' :: acc)
        else if e = 'f' then parseStringBody rest2 ('\x0c' :: acc)
        else if e = 'n' then parseStringBody rest2 ('\n' :: acc)
        else if e = 'r' then parseStringBody rest2 ('\r' :: acc)
        else if e = 't' then parseStringBody rest2 ('\t' :: acc)
        else if e = 'u' then
          match rest2 with
          | h1 :: h2 :: h3 :: h4 :: rest3 =>
            match hexVal h1, hexVal h2, hexVal h3, hexVal h4 with
            | some a, some b, some c2, some d =>
              let n := ((a * 16 + b) * 16 + c2) * 16 + d
              if _h : n.isValidChar then parseStringBody rest3 (Char.ofNat n :: acc)
              else none
            | _, _, _, _ => none
          | _ => none
        else none
    else if c.toNat < 32 then none
    else parseStringBody rest (c :: acc)

/-- Integral JSON number at the head of the input, following the strict
number grammar (optional minus, no leading zeros).  Fractional and
exponent continuations, and the NaN and Infinity extensions, are
outside the embedding; no claim exercises them. -/
def parseJsonNumber (s : List Char) : Option (JsonVal × List Char) :=
  let neg := match s with | '-' :: _ => true | _ => false
  let s1 := if neg then s.tail else s
  let ds := s1.takeWhile Char.isDigit
  let rest := s1.dropWhile Char.isDigit
  match ds, rest with
  | [], _ => none
  | '0' :: _ :: _, _ => none
  | _, '.' :: _ => none
  | _, 'e' :: _ => none
  | _, 'E' :: _ => none
  | _, _ =>
    let n : Int := Int.ofNat (ds.foldl (fun n c => 10 * n + (c.toNat - '0'.toNat)) 0)
    some (JsonVal.num (if neg then -n else n), rest)

mutual

/-- `json.loads` value parser, fuelled (any fuel at least twice the
input length behaves identically): returns the decoded value and the
unconsumed remainder. -/
def parseJsonVal : Nat → List Char → Option (JsonVal × List Char)
  | 0, _ => none
  | fuel + 1, s =>
    match s.dropWhile isJsonWs with
    | 'n' :: 'u' :: 'l' :: 'l' :: rest => some (JsonVal.null, rest)
    | 't' :: 'r' :: 'u' :: 'e' :: rest => some (JsonVal.bool true, rest)
    | 'f' :: 'a' :: 'l' :: 's' :: 'e' :: rest => some (JsonVal.bool false, rest)
    | '"' :: rest => (parseStringBody rest []).map (fun p => (JsonVal.str p.1, p.2))
    | '[' :: rest =>
      match rest.dropWhile isJsonWs with
      | ']' :: rest2 => some (JsonVal.arr [], rest2)
      | _ => parseArrayItems fuel rest []
    | '\x7b' :: rest =>
      match rest.dropWhile isJsonWs with
      | '\x7d' :: rest2 => some (JsonVal.obj [], rest2)
      | _ => parseObjItems fuel rest []
    | other => parseJsonNumber other

/-- Elements of a non-empty JSON array after the opening bracket. -/
def parseArrayItems : Nat → List Char → List JsonVal →
    Option (JsonVal × List Char)
  | 0, _, _ => none
  | fuel + 1, s, acc =>
    match parseJsonVal fuel s with
    | some (v, rest) =>
      match rest.dropWhile isJsonWs with
      | ',' :: rest2 => parseArrayItems fuel rest2 (v :: acc)
      | ']' :: rest2 => some (JsonVal.arr (v :: acc).reverse, rest2)
      | _ => none
    | none => none

/-- Items of a non-empty JSON object after the opening brace; duplicate
keys behave like repeated dict assignment. -/
def parseObjItems : Nat → List Char → List (String × JsonVal) →
    Option (JsonVal × List Char)
  | 0, _, _ => none
  | fuel + 1, s, acc =>
    match s.dropWhile isJsonWs with
    | '"' :: rest =>
      match parseStringBody rest [] with
      | some (key, rest1) =>
        match rest1.dropWhile isJsonWs with
        | ':' :: rest2 =>
          match parseJsonVal fuel rest2 with
          | some (v, rest3) =>
            match rest3.dropWhile isJsonWs with
            | ',' :: rest4 => parseObjItems fuel rest4 (dictInsert acc key v)
            | '\x7d' :: rest4 => some (JsonVal.obj (dictInsert acc key v), rest4)
            | _ => none
          | none => none
        | _ => none
      | none => none
    | _ => none

end

/-- `json.loads`: decode one JSON document and require only whitespace
to remain. -/
def json_loads (s : List Char) : Option JsonVal :=
  match parseJsonVal (2 * s.length + 2) s with
  | some (v, rest) => if rest.dropWhile isJsonWs = [] then some v else none
  | none => none

/-- Content-level failures of `get_extracted_data`: no brace-delimited
block in the response, or the cleaned block failing to decode. -/
inductive ContentError where
  | noJsonBlock
  | decodeError
deriving DecidableEq

/-- The null coercion applied to the decoded top-level dict:
`v if v is not None else ""`.  No other value is changed. -/
def coerceNulls (kvs : List (String × JsonVal)) : List (String × JsonVal) :=
  kvs.map (fun p => (p.1, match p.2 with | JsonVal.null => JsonVal.str "" | v => v))

/-- The response-content processing of `get_extracted_data`: extract the
brace-delimited block, strip comments and trailing commas, decode, and
coerce nulls.  (A successful decode of the block is necessarily an
object, since the block starts with a brace.) -/
def parseStage (content : String) : Except ContentError (List (String × JsonVal)) :=
  match extractJsonSpan content.data with
  | none => Except.error ContentError.noJsonBlock
  | some span =>
    match json_loads (sanitizeJson span) with
    | some (JsonVal.obj kvs) => Except.ok (coerceNulls kvs)
    | _ => Except.error ContentError.decodeError

/-- Result of one remote attempt: a decoded map, a transport failure
(an HTTPError out of raise_for_status, or a ConnectionError), or a
content failure raised out of the body. -/
inductive AttemptResult where
  | ok (kvs : List (String × JsonVal))
  | httpError
  | connectionError
  | contentError (e : ContentError)

/-- The retry predicate configured on `get_extracted_data`:
retry exactly on the two transport exception types. -/
def retryOn : AttemptResult → Bool
  | AttemptResult.httpError => true
  | AttemptResult.connectionError => true
  | _ => false

/-- Tenacity's `wait_exponential(multiplier, min, max)` wait after a
failed attempt: multiplier times 2 to the attempt number, clamped
between min and max. -/
def waitExponential (multiplier mn mx attemptNumber : Nat) : Nat :=
  min mx (max mn (multiplier * 2 ^ attemptNumber))

/-- Tenacity's retry loop, modelled from the library's documented
behaviour: run the current attempt; while the retry predicate holds and
attempts remain, wait and rerun.  Returns the final outcome, the number
of attempts made, and the waits taken; a retryable outcome on the last
permitted attempt is re-raised as is. -/
def tenacityRun (wait : Nat → Nat) (attempt : Nat → AttemptResult) :
    Nat → Nat → AttemptResult × Nat × List Nat
  | k, 0 => (attempt k, 1, [])
  | k, remaining + 1 =>
    let o := attempt k
    if retryOn o then
      let r := tenacityRun wait attempt (k + 1) remaining
      (r.1, r.2.1 + 1, wait k :: r.2.2)
    else (o, 1, [])

/-- The retry configuration decorating `get_extracted_data`:
`stop_after_attempt(3)` with `wait_exponential(multiplier=1, min=4,
max=10)`. -/
def get_extracted_data_run (attempt : Nat → AttemptResult) :
    AttemptResult × Nat × List Nat :=
  tenacityRun (waitExponential 1 4 10) attempt 1 2

/-- The content outcome of a response body, viewed as an attempt
result. -/
def contentOutcome (content : String) : AttemptResult :=
  match parseStage content with
  | Except.ok kvs => AttemptResult.ok kvs
  | Except.error e => AttemptResult.contentError e

/-- One step of the merge loop of `main`: store the value when the key
is absent, or when the stored value equals the empty string and the new
value does not. -/
def mergeStep (c : List (String × JsonVal)) (p : String × JsonVal) :
    List (String × JsonVal) :=
  match dictGet c p.1 with
  | none => dictInsert c p.1 p.2
  | some cur => if cur.isEmptyStr && !p.2.isEmptyStr then dictInsert c p.1 p.2 else c

/-- The merge of `main`: fold every report's key-value pairs, in upload
order, into one combined dict. -/
def mergeKV (maps : List (List (String × JsonVal))) : List (String × JsonVal) :=
  maps.foldl (fun c kv => kv.foldl mergeStep c) []

/-- Separator-join of character-list parts, used to state the
all-occurrences replacement property. -/
def joinSep (sep : List Char) : List (List Char) → List Char
  | [] => []
  | [part] => part
  | part :: q :: parts => part ++ sep ++ joinSep sep (q :: parts)

/-- Concatenation of a list of strings, used to state the extractor
property. -/
def joinAll (l : List String) : String := l.foldl (fun a b => a ++ b) ""

/-- The values supplied for one key by a flat list of pairs, in order. -/
def valsFor (pairs : List (String × JsonVal)) (k : String) : List JsonVal :=
  (pairs.filter (fun p => p.1 == k)).map Prod.snd

/-- Modelled from the specified merge policy, per key: the first
non-empty value seen wins; failing that, the first value seen. -/
def mergeSpecVal (pairs : List (String × JsonVal)) (k : String) : Option JsonVal :=
  match (valsFor pairs k).find? (fun v => !v.isEmptyStr) with
  | some v => some v
  | none => (valsFor pairs k).head?

/-- The per-key effect of folding a flat pair list into a combined dict,
given the value the dict currently stores for that key. -/
def mergeStepSpec (pairs : List (String × JsonVal)) (k : String) :
    Option JsonVal → Option JsonVal
  | none => mergeSpecVal pairs k
  | some cur =>
    if cur.isEmptyStr then
      match (valsFor pairs k).find? (fun v => !v.isEmptyStr) with
      | some w => some w
      | none => some cur
    else some cur


theorem occursIn_false_parts {pat : List Char} {c : Char} {rest : List Char}
    (h : occursIn pat (c :: rest) = false) :
    pat.isPrefixOf (c :: rest) = false ∧ occursIn pat rest = false := by
  simpa [occursIn] using h

theorem occursIn_cons (pat : List Char) (c : Char) (rest : List Char) :
    occursIn pat (c :: rest) = (pat.isPrefixOf (c :: rest) || occursIn pat rest) := rfl

theorem occursIn_of_prefix {pat l : List Char} (hne : pat ≠ []) (h : pat <+: l) :
    occursIn pat l = true := by
  cases l with
  | nil =>
    rcases h with ⟨w, hw⟩
    cases pat with
    | nil => exact absurd rfl hne
    | cons a as => simp at hw
  | cons c rest =>
    have hp : pat.isPrefixOf (c :: rest) = true := List.isPrefixOf_iff_prefix.mpr h
    rw [occursIn_cons, hp, Bool.true_or]

theorem occursIn_append {pat : List Char} (hne : pat ≠ []) (s t : List Char) :
    occursIn pat (s ++ pat ++ t) = true := by
  induction s with
  | nil => exact occursIn_of_prefix hne (by simp)
  | cons c s' ih =>
    have he : (c :: s') ++ pat ++ t = c :: (s' ++ pat ++ t) := by simp
    rw [he, occursIn_cons, ih, Bool.or_true]

theorem replaceAllAux_of_not_occurs {p : Char} {ps rep : List Char} :
    ∀ (fuel : Nat) (l : List Char), l.length ≤ fuel →
      occursIn (p :: ps) l = false → replaceAllAux p ps rep fuel l = l
  | fuel, [], _, _ => by cases fuel <;> rfl
  | 0, c :: rest, hlen, _ => by simp at hlen
  | fuel + 1, c :: rest, hlen, hocc => by
    obtain ⟨h1, h2⟩ := occursIn_false_parts hocc
    have hlen' : rest.length ≤ fuel := by
      have hx := hlen
      simp [List.length_cons] at hx
      omega
    simp only [replaceAllAux, h1, Bool.false_eq_true, if_false]
    rw [replaceAllAux_of_not_occurs fuel rest hlen' h2]

theorem no_straddle {mid : List Char} (hmid : ∀ c ∈ mid, c ≠ '[')
    {s t : List Char} (hs : s ≠ []) (hocc : occursIn ('[' :: mid) s = false) :
    ('[' :: mid).isPrefixOf (s ++ ('[' :: mid) ++ t) = false := by
  by_contra hcon
  have h' : ('[' :: mid) <+: s ++ ('[' :: mid) ++ t :=
    List.isPrefixOf_iff_prefix.mp (by simpa using hcon)
  have hbig : s <+: s ++ ('[' :: mid) ++ t := by
    rw [List.append_assoc]
    exact List.prefix_append s _
  rcases le_or_lt ('[' :: mid).length s.length with hle | hlt
  · have hps : ('[' :: mid) <+: s := List.prefix_of_prefix_length_le h' hbig hle
    have htrue := occursIn_of_prefix (by simp) hps
    rw [hocc] at htrue
    exact Bool.false_ne_true htrue
  · have hsp : s <+: ('[' :: mid) := List.prefix_of_prefix_length_le hbig h' (Nat.le_of_lt hlt)
    obtain ⟨u, hu⟩ := hsp
    have hune : u ≠ [] := by
      intro he
      subst he
      rw [List.append_nil] at hu
      subst hu
      exact Nat.lt_irrefl _ hlt
    cases s with
    | nil => exact hs rfl
    | cons a s' =>
      obtain ⟨ha, hmid_eq⟩ : a = '[' ∧ s' ++ u = mid := by
        have hx := hu
        simp only [List.cons_append, List.cons.injEq] at hx
        exact hx
      obtain ⟨w, hw⟩ := h'
      cases u with
      | nil => exact hune rfl
      | cons x u' =>
        have hx : x = '[' := by
          have heq : ((a :: s') ++ (x :: u')) ++ w = (a :: s') ++ ((a :: s') ++ (x :: u')) ++ t := by
            rw [hu, hw]
          have heq2 : (x :: u') ++ w = (a :: s') ++ (x :: u') ++ t := by
            rw [List.append_assoc, List.append_assoc] at heq
            exact List.append_cancel_left heq
          have hx2 : x = a := by
            have hc := congrArg (fun l => l.head?) heq2
            simpa using hc
          rw [hx2, ha]
        have hxmem : x ∈ mid := by
          rw [← hmid_eq]
          exact List.mem_append_right s' (List.mem_cons_self x u')
        exact hmid x hxmem hx

theorem replaceAllAux_scan {mid : List Char} (hmid : ∀ c ∈ mid, c ≠ '[') (rep : List Char) :
    ∀ (part : List Char) (l : List Char) (fuel : Nat),
      occursIn ('[' :: mid) part = false →
      (part ++ ('[' :: mid) ++ l).length ≤ fuel →
      replaceAllAux '[' mid rep fuel (part ++ ('[' :: mid) ++ l) =
        part ++ rep ++ replaceAllAux '[' mid rep (fuel - part.length - 1) l
  | [], l, fuel, _, hlen => by
    cases fuel with
    | zero => simp at hlen
    | succ f =>
      have hshape : ([] : List Char) ++ ('[' :: mid) ++ l = '[' :: (mid ++ l) := by simp
      rw [hshape]
      have hpre : ('[' :: mid).isPrefixOf ('[' :: (mid ++ l)) = true := by
        apply List.isPrefixOf_iff_prefix.mpr
        exact ⟨l, by simp⟩
      simp only [replaceAllAux, hpre, if_true]
      rw [show ((mid ++ l).drop mid.length) = l from List.drop_left mid l]
      simp
  | c :: part', l, fuel, hocc, hlen => by
    cases fuel with
    | zero => simp at hlen
    | succ f =>
      obtain ⟨h1, h2⟩ := occursIn_false_parts hocc
      have hshape : (c :: part') ++ ('[' :: mid) ++ l = c :: (part' ++ ('[' :: mid) ++ l) := by
        simp
      have hpre : ('[' :: mid).isPrefixOf ((c :: part') ++ ('[' :: mid) ++ l) = false :=
        no_straddle hmid (by simp) hocc
      rw [hshape] at hpre ⊢
      have hlen' : (part' ++ ('[' :: mid) ++ l).length ≤ f := by
        rw [hshape] at hlen
        simp [List.length_cons] at hlen
        simp [List.length_append]
        omega
      simp only [replaceAllAux, hpre, Bool.false_eq_true, if_false]
      rw [replaceAllAux_scan hmid rep part' l f h2 hlen']
      have hidx : f - part'.length - 1 = (f + 1) - (c :: part').length - 1 := by
        simp [List.length_cons]
      rw [hidx]
      simp

theorem replaceAllAux_joinSep {mid : List Char} (hmid : ∀ c ∈ mid, c ≠ '[') (rep : List Char) :
    ∀ (parts : List (List Char)) (fuel : Nat),
      (∀ part ∈ parts, occursIn ('[' :: mid) part = false) →
      (joinSep ('[' :: mid) parts).length ≤ fuel →
      replaceAllAux '[' mid rep fuel (joinSep ('[' :: mid) parts) = joinSep rep parts
  | [], fuel, _, _ => by cases fuel <;> rfl
  | [part], fuel, hparts, hlen => by
    rw [joinSep, joinSep]
    exact replaceAllAux_of_not_occurs fuel part hlen (hparts part (by simp))
  | part :: q :: parts, fuel, hparts, hlen => by
    rw [joinSep] at hlen ⊢
    rw [joinSep]
    rw [replaceAllAux_scan hmid rep part (joinSep ('[' :: mid) (q :: parts)) fuel
      (hparts part (by simp)) hlen]
    rw [replaceAllAux_joinSep hmid rep (q :: parts) (fuel - part.length - 1)
      (fun x hx => hparts x (List.mem_cons_of_mem part hx))
      (by
        simp [List.length_append, List.length_cons] at hlen ⊢
        omega)]

theorem placeholderOf_data (k : String) :
    (placeholderOf k).data = '[' :: (k.data ++ [']']) := by
  obtain ⟨d⟩ := k
  rfl

theorem strIn_mk (a : String) (l : List Char) :
    strIn a (String.mk l) = occursIn a.data l := rfl

theorem fillText_nil (t : String) : fillText [] t = t := rfl

theorem fillText_cons (p : String × JsonVal) (kvs : List (String × JsonVal)) (t : String) :
    fillText (p :: kvs) t =
      fillText kvs
        (if strIn (placeholderOf p.1) t then pyReplace t (placeholderOf p.1) (pyStr p.2)
         else t) := rfl

theorem fillText_id : ∀ (kvs : List (String × JsonVal)) (t : String),
    (∀ p ∈ kvs, strIn (placeholderOf p.1) t = false) → fillText kvs t = t
  | [], t, _ => rfl
  | p :: kvs, t, h => by
    have h1 := h p (List.mem_cons_self p kvs)
    rw [fillText_cons, h1]
    simp only [Bool.false_eq_true, if_false]
    exact fillText_id kvs t fun q hq => h q (List.mem_cons_of_mem p hq)

theorem fillText_single_joinSep (k : String) (v : JsonVal) (parts : List (List Char))
    (hk : ∀ c ∈ k.data, c ≠ '[')
    (hparts : ∀ part ∈ parts, occursIn ('[' :: (k.data ++ [']'])) part = false) :
    fillText [(k, v)] (String.mk (joinSep ('[' :: (k.data ++ [']'])) parts)) =
      String.mk (joinSep (pyStr v).data parts) := by
  have hmid : ∀ c ∈ k.data ++ [']'], c ≠ '[' := by
    intro c hc
    rcases List.mem_append.mp hc with h | h
    · exact hk c h
    · simp only [List.mem_singleton] at h
      subst h
      decide
  match parts with
  | [] =>
    rw [joinSep, joinSep]
    apply fillText_id
    intro p hp
    rw [List.mem_singleton] at hp
    subst hp
    rw [strIn_mk, placeholderOf_data]
    rfl
  | [part] =>
    rw [joinSep, joinSep]
    apply fillText_id
    intro p hp
    rw [List.mem_singleton] at hp
    subst hp
    rw [strIn_mk, placeholderOf_data]
    exact hparts part (List.mem_singleton_self part)
  | part :: q :: ps =>
    have hocc :
        occursIn ('[' :: (k.data ++ [']']))
          (joinSep ('[' :: (k.data ++ [']'])) (part :: q :: ps)) = true := by
      rw [joinSep]
      exact occursIn_append (by simp) part _
    rw [fillText_cons, fillText_nil]
    rw [strIn_mk, placeholderOf_data]
    rw [hocc]
    simp only [if_true]
    show pyReplace (String.mk (joinSep ('[' :: (k.data ++ [']'])) (part :: q :: ps)))
        (placeholderOf k) (pyStr v) = String.mk (joinSep (pyStr v).data (part :: q :: ps))
    rw [pyReplace, placeholderOf_data]
    exact congrArg String.mk
      (replaceAllAux_joinSep hmid (pyStr v).data (part :: q :: ps) _ hparts (Nat.le_refl _))


theorem pdf_foldl_acc : ∀ (pages : List (Option String)) (acc : String),
    pages.foldl pdfStep acc = acc ++ pages.foldl pdfStep ""
  | [], acc => by simp
  | p :: pages, acc => by
    rw [List.foldl_cons, List.foldl_cons]
    rw [pdf_foldl_acc pages (pdfStep acc p), pdf_foldl_acc pages (pdfStep "" p)]
    rw [← String.append_assoc]
    have hstep : acc ++ pdfStep "" p = pdfStep acc p := by
      cases p with
      | none => simp [pdfStep]
      | some t =>
        by_cases ht : t = "" <;>
          simp [pdfStep, ht, String.append_assoc]
    rw [hstep]

theorem joinAll_acc : ∀ (l : List String) (acc : String),
    l.foldl (fun a b => a ++ b) acc = acc ++ joinAll l
  | [], acc => by simp [joinAll]
  | s :: l, acc => by
    rw [joinAll, List.foldl_cons, List.foldl_cons]
    rw [joinAll_acc l (acc ++ s), joinAll_acc l ("" ++ s)]
    simp [String.append_assoc]

theorem joinAll_cons (s : String) (l : List String) :
    joinAll (s :: l) = s ++ joinAll l := by
  show (s :: l).foldl (fun a b => a ++ b) "" = s ++ joinAll l
  rw [List.foldl_cons, joinAll_acc]
  simp

theorem extract_text_all_nonempty : ∀ (texts : List String),
    (∀ t ∈ texts, t ≠ "") →
    extract_text_from_pdf (texts.map some) = joinAll (texts.map (fun t => t ++ "\n"))
  | [], _ => rfl
  | t :: texts, h => by
    have ht : t ≠ "" := h t (List.mem_cons_self t texts)
    rw [List.map_cons, List.map_cons, joinAll_cons]
    show (some t :: texts.map some).foldl pdfStep "" = _
    rw [List.foldl_cons]
    rw [pdf_foldl_acc]
    rw [show pdfStep "" (some t) = t ++ "\n" by simp [pdfStep, ht]]
    rw [show (texts.map some).foldl pdfStep "" = extract_text_from_pdf (texts.map some) from rfl]
    rw [extract_text_all_nonempty texts fun x hx => h x (List.mem_cons_of_mem t hx)]

theorem extract_text_skip (p q : List (Option String)) (x : Option String)
    (hx : x = none ∨ x = some "") :
    extract_text_from_pdf (p ++ x :: q) = extract_text_from_pdf (p ++ q) := by
  rw [extract_text_from_pdf, extract_text_from_pdf, List.foldl_append, List.foldl_append,
    List.foldl_cons]
  rcases hx with h | h <;> subst h <;> rfl

theorem extract_text_all_blank : ∀ (pages : List (Option String)),
    (∀ x ∈ pages, x = none ∨ x = some "") → extract_text_from_pdf pages = ""
  | [], _ => rfl
  | p :: pages, h => by
    rw [extract_text_from_pdf, List.foldl_cons]
    have hp : pdfStep "" p = "" := by
      rcases h p (List.mem_cons_self p pages) with h1 | h1 <;> subst h1 <;> rfl
    rw [hp, ← extract_text_from_pdf]
    exact extract_text_all_blank pages fun x hx => h x (List.mem_cons_of_mem p hx)

theorem strLeChars_total : ∀ (a b : List Char),
    strLeChars a b = true ∨ strLeChars b a = true
  | [], _ => Or.inl rfl
  | _ :: _, [] => Or.inr rfl
  | a :: as, b :: bs => by
    by_cases hab : a = b
    · subst hab
      rcases strLeChars_total as bs with h | h
      · exact Or.inl (by simp [strLeChars, h])
      · exact Or.inr (by simp [strLeChars, h])
    · rcases lt_trichotomy a b with h | h | h
      · exact Or.inl (by simp [strLeChars, hab, h])
      · exact absurd h hab
      · exact Or.inr (by simp [strLeChars, Ne.symm hab, h])

theorem strLeChars_trans : ∀ (a b c : List Char),
    strLeChars a b = true → strLeChars b c = true → strLeChars a c = true
  | [], _, _, _, _ => rfl
  | a :: as, [], _, hab, _ => by simp [strLeChars] at hab
  | _ :: _, _ :: _, [], _, hbc => by simp [strLeChars] at hbc
  | a :: as, b :: bs, c :: cs, hab, hbc => by
    by_cases h1 : a = b <;> by_cases h2 : b = c
    · subst h1; subst h2
      simp only [strLeChars, if_pos rfl] at hab hbc ⊢
      exact strLeChars_trans as bs cs hab hbc
    · subst h1
      simp only [strLeChars, if_pos rfl] at hab
      simp only [strLeChars, if_neg h2] at hbc
      simp only [strLeChars, if_neg h2]
      exact hbc
    · subst h2
      simp only [strLeChars, if_neg h1] at hab
      simp only [strLeChars, if_neg h1]
      exact hab
    · simp only [strLeChars, if_neg h1] at hab
      simp only [strLeChars, if_neg h2] at hbc
      have hac : a < c := lt_trans (of_decide_eq_true hab) (of_decide_eq_true hbc)
      have hne : a ≠ c := ne_of_lt hac
      simp [strLeChars, hne, hac]

theorem strLeChars_lt_or_eq : ∀ (a b : List Char),
    strLeChars a b = true → a = b ∨ List.Lex (· < ·) a b
  | [], [], _ => Or.inl rfl
  | [], _ :: _, _ => Or.inr List.Lex.nil
  | a :: as, [], h => by simp [strLeChars] at h
  | a :: as, b :: bs, h => by
    by_cases hab : a = b
    · subst hab
      simp only [strLeChars, if_pos rfl] at h
      rcases strLeChars_lt_or_eq as bs h with he | hl
      · exact Or.inl (by rw [he])
      · exact Or.inr (List.Lex.cons hl)
    · simp only [strLeChars, if_neg hab] at h
      exact Or.inr (List.Lex.rel (of_decide_eq_true h))

theorem strLe_imp_le {a b : String} (h : strLe a b) : a ≤ b := by
  rw [String.le_iff_toList_le]
  rcases strLeChars_lt_or_eq a.data b.data h with he | hl
  · exact le_of_eq he
  · exact le_of_lt hl

theorem takeWhile_append_all {α : Type} (p : α → Bool) :
    ∀ (l₁ : List α) (b : α) (l₂ : List α), (∀ x ∈ l₁, p x = true) → p b = false →
      (l₁ ++ b :: l₂).takeWhile p = l₁ ∧ (l₁ ++ b :: l₂).dropWhile p = b :: l₂
  | [], b, l₂, _, hb => by simp [List.takeWhile_cons, List.dropWhile_cons, hb]
  | x :: l₁, b, l₂, h, hb => by
    have hx : p x = true := h x (List.mem_cons_self x l₁)
    obtain ⟨h1, h2⟩ :=
      takeWhile_append_all p l₁ b l₂ (fun y hy => h y (List.mem_cons_of_mem x hy)) hb
    constructor
    · rw [List.cons_append, List.takeWhile_cons, hx]
      simp [h1]
    · rw [List.cons_append, List.dropWhile_cons, hx]
      simp [h2]

theorem findFieldsAux_mem_cons {x : String} {c : Char} {rest : List Char}
    (h : x ∈ findFieldsAux rest) : x ∈ findFieldsAux (c :: rest) := by
  by_cases hc : c = '['
  · subst hc
    cases h1 : rest.takeWhile isFieldChar with
    | nil => simpa [findFieldsAux, h1] using h
    | cons r rs =>
      cases h2 : rest.dropWhile isFieldChar with
      | nil => simpa [findFieldsAux, h1, h2] using h
      | cons b bs =>
        by_cases hb : b = ']'
        · subst hb
          simp only [findFieldsAux, h1, h2, if_pos rfl]
          exact List.mem_cons_of_mem _ h
        · simpa [findFieldsAux, h1, h2, hb] using h
  · simpa [findFieldsAux, hc] using h

theorem findFieldsAux_sound : ∀ (l : List Char) (f : String), f ∈ findFieldsAux l →
    f.data ≠ [] ∧ (∀ c ∈ f.data, isFieldChar c = true) ∧
      occursIn ('[' :: (f.data ++ [']'])) l = true
  | [], f, h => by simp [findFieldsAux] at h
  | c :: rest, f, h => by
    have lift : f ∈ findFieldsAux rest →
        f.data ≠ [] ∧ (∀ x ∈ f.data, isFieldChar x = true) ∧
          occursIn ('[' :: (f.data ++ [']'])) (c :: rest) = true := by
      intro hmem
      obtain ⟨hne, hall, hocc⟩ := findFieldsAux_sound rest f hmem
      exact ⟨hne, hall, by rw [occursIn_cons, hocc, Bool.or_true]⟩
    by_cases hc : c = '['
    · subst hc
      cases h1 : rest.takeWhile isFieldChar with
      | nil => exact lift (by simpa [findFieldsAux, h1] using h)
      | cons r rs =>
        cases h2 : rest.dropWhile isFieldChar with
        | nil => exact lift (by simpa [findFieldsAux, h1, h2] using h)
        | cons b bs =>
          by_cases hb : b = ']'
          · subst hb
            simp only [findFieldsAux, h1, h2, if_pos rfl] at h
            rcases List.mem_cons.mp h with hf | hf
            · subst hf
              refine ⟨by simp, ?_, ?_⟩
              · intro x hx
                apply List.mem_takeWhile_imp
                rw [h1]
                exact hx
              · have hrest : rest = (r :: rs) ++ ']' :: bs := by
                  rw [← h1, ← h2, List.takeWhile_append_dropWhile]
                apply occursIn_of_prefix (by simp)
                refine ⟨bs, ?_⟩
                rw [hrest]
                simp
            · exact lift hf
          · exact lift (by simpa [findFieldsAux, h1, h2, hb] using h)
    · exact lift (by simpa [findFieldsAux, hc] using h)

theorem findFieldsAux_complete : ∀ (l f : List Char), f ≠ [] →
    (∀ c ∈ f, isFieldChar c = true) →
    occursIn ('[' :: (f ++ [']'])) l = true → String.mk f ∈ findFieldsAux l
  | [], f, _, _, hocc => by simp [occursIn] at hocc
  | c :: rest, f, hne, hall, hocc => by
    rw [occursIn_cons] at hocc
    rcases Bool.or_eq_true_iff.mp hocc with hpre | htail
    · have hp : ('[' :: (f ++ [']'])) <+: c :: rest := List.isPrefixOf_iff_prefix.mp hpre
      obtain ⟨w, hw⟩ := hp
      simp only [List.cons_append, List.cons.injEq, List.append_assoc,
        List.singleton_append] at hw
      obtain ⟨hc1, hc2⟩ := hw
      subst hc1
      have hc2' : rest = f ++ ']' :: w := hc2.symm
      subst hc2'
      have hclose : isFieldChar ']' = false := by decide
      obtain ⟨htake, hdrop⟩ := takeWhile_append_all isFieldChar f ']' w hall hclose
      cases f with
      | nil => exact absurd rfl hne
      | cons r rs =>
        simp only [findFieldsAux, htake, hdrop, if_pos rfl]
        exact List.mem_cons_self _ _
    · exact findFieldsAux_mem_cons (findFieldsAux_complete rest f hne hall htail)

theorem mem_allMatches_iff {doc : Docx} {f : String} :
    f ∈ allMatches doc ↔
      ∃ t, (t ∈ doc.paragraphs ∨ t ∈ cellTexts doc) ∧ f ∈ findFields t := by
  rw [allMatches, List.mem_append]
  constructor
  · rintro (h | h)
    · obtain ⟨l, hl, hf⟩ := List.mem_flatten.mp h
      obtain ⟨t, ht, rfl⟩ := List.mem_map.mp hl
      exact ⟨t, Or.inl ht, hf⟩
    · obtain ⟨l, hl, hf⟩ := List.mem_flatten.mp h
      obtain ⟨t, ht, rfl⟩ := List.mem_map.mp hl
      exact ⟨t, Or.inr ht, hf⟩
  · rintro ⟨t, ht | ht, hf⟩
    · exact Or.inl (List.mem_flatten.mpr ⟨findFields t, List.mem_map_of_mem _ ht, hf⟩)
    · exact Or.inr (List.mem_flatten.mpr ⟨findFields t, List.mem_map_of_mem _ ht, hf⟩)

theorem mem_extract_iff {doc : Docx} {f : String} :
    f ∈ extract_template_fields doc ↔ f ∈ allMatches doc := by
  rw [extract_template_fields, (List.perm_insertionSort strLe _).mem_iff, List.mem_dedup]

theorem extract_sorted (doc : Docx) :
    (extract_template_fields doc).Sorted (fun a b => a ≤ b) := by
  haveI : IsTotal String strLe := ⟨fun a b => strLeChars_total a.data b.data⟩
  haveI : IsTrans String strLe := ⟨fun a b c => strLeChars_trans a.data b.data c.data⟩
  have hs : (extract_template_fields doc).Sorted strLe :=
    List.sorted_insertionSort strLe (allMatches doc).dedup
  exact hs.imp fun h => strLe_imp_le h

theorem extract_nodup (doc : Docx) : (extract_template_fields doc).Nodup :=
  ((List.perm_insertionSort strLe (allMatches doc).dedup).nodup_iff).mpr
    (List.nodup_dedup _)

theorem dictGet_dictInsert_self : ∀ (c : List (String × JsonVal)) (k : String) (v : JsonVal),
    dictGet (dictInsert c k v) k = some v
  | [], k, v => by simp [dictInsert, dictGet]
  | (k', v') :: rest, k, v => by
    by_cases h : k' = k
    · simp [dictInsert, dictGet, h]
    · simp only [dictInsert, if_neg h]
      simp only [dictGet, if_neg h]
      exact dictGet_dictInsert_self rest k v

theorem dictGet_dictInsert_ne : ∀ (c : List (String × JsonVal)) (k k' : String) (v : JsonVal),
    k' ≠ k → dictGet (dictInsert c k' v) k = dictGet c k
  | [], k, k', v, hne => by simp [dictInsert, dictGet, hne]
  | (a, b) :: rest, k, k', v, hne => by
    by_cases h : a = k'
    · subst h
      simp only [dictInsert, if_pos rfl]
      simp only [dictGet, if_neg hne]
    · simp only [dictInsert, if_neg h]
      simp only [dictGet]
      by_cases hak : a = k
      · simp [hak]
      · rw [if_neg hak, if_neg hak]
        exact dictGet_dictInsert_ne rest k k' v hne

theorem dictGet_mergeStep_ne {c : List (String × JsonVal)} {p : String × JsonVal} {k : String}
    (hne : p.1 ≠ k) : dictGet (mergeStep c p) k = dictGet c k := by
  rw [mergeStep]
  cases dictGet c p.1 with
  | none => exact dictGet_dictInsert_ne c k p.1 p.2 hne
  | some cur =>
    by_cases hc : (cur.isEmptyStr && !p.2.isEmptyStr) = true
    · simp only [hc, if_true]
      exact dictGet_dictInsert_ne c k p.1 p.2 hne
    · have hc' : (cur.isEmptyStr && !p.2.isEmptyStr) = false := by simpa using hc
      simp only [hc', Bool.false_eq_true, if_false]



theorem valsFor_cons_self (k : String) (v : JsonVal) (pairs : List (String × JsonVal)) :
    valsFor ((k, v) :: pairs) k = v :: valsFor pairs k := by
  simp [valsFor, List.filter_cons]

theorem valsFor_cons_ne {k k' : String} (hne : k' ≠ k) (v : JsonVal)
    (pairs : List (String × JsonVal)) :
    valsFor ((k', v) :: pairs) k = valsFor pairs k := by
  simp [valsFor, List.filter_cons, hne]

theorem isEmptyStr_eq {v : JsonVal} (h : v.isEmptyStr = true) : v = JsonVal.str "" := by
  cases v <;> simp [JsonVal.isEmptyStr] at h ⊢
  exact h


theorem foldl_mergeStep_dictGet :
    ∀ (pairs : List (String × JsonVal)) (c : List (String × JsonVal)) (k : String),
      dictGet (pairs.foldl mergeStep c) k = mergeStepSpec pairs k (dictGet c k)
  | [], c, k => by
    rw [List.foldl_nil]
    cases hdg : dictGet c k with
    | none => simp [mergeStepSpec, mergeSpecVal, valsFor]
    | some cur =>
      by_cases hcur : cur.isEmptyStr = true <;>
        simp [mergeStepSpec, valsFor, hcur]
  | (k', v) :: pairs, c, k => by
    rw [List.foldl_cons, foldl_mergeStep_dictGet pairs (mergeStep c (k', v)) k]
    by_cases hkk : k' = k
    · subst hkk
      cases hdg : dictGet c k' with
      | none =>
        have hstep : mergeStep c (k', v) = dictInsert c k' v := by
          simp [mergeStep, hdg]
        rw [hstep, dictGet_dictInsert_self]
        by_cases hv : v.isEmptyStr = true
        · simp [mergeStepSpec, mergeSpecVal, valsFor_cons_self, List.find?_cons, hv]
        · have hv' : v.isEmptyStr = false := by simpa using hv
          simp [mergeStepSpec, mergeSpecVal, valsFor_cons_self, List.find?_cons, hv']
      | some cur =>
        by_cases hcond : (cur.isEmptyStr && !v.isEmptyStr) = true
        · obtain ⟨hcur, hv⟩ := Bool.and_eq_true_iff.mp hcond
          have hv' : v.isEmptyStr = false := by simpa using hv
          have hstep : mergeStep c (k', v) = dictInsert c k' v := by
            simp [mergeStep, hdg, hcond]
          rw [hstep, dictGet_dictInsert_self]
          simp [mergeStepSpec, valsFor_cons_self, List.find?_cons, hcur, hv']
        · have hcond' : (cur.isEmptyStr && !v.isEmptyStr) = false := by simpa using hcond
          have hstep : mergeStep c (k', v) = c := by
            simp [mergeStep, hdg, hcond']
          rw [hstep, hdg]
          by_cases hcur : cur.isEmptyStr = true
          · have hv : v.isEmptyStr = true := by
              rcases Bool.and_eq_false_iff.mp hcond' with h | h
              · rw [hcur] at h
                exact absurd h (by simp)
              · simpa using h
            simp [mergeStepSpec, valsFor_cons_self, List.find?_cons, hcur, hv]
          · have hcur' : cur.isEmptyStr = false := by simpa using hcur
            simp [mergeStepSpec, valsFor_cons_self, hcur']
    · have hg : dictGet (mergeStep c (k', v)) k = dictGet c k :=
        @dictGet_mergeStep_ne c (k', v) k hkk
      rw [hg]
      cases hdg : dictGet c k with
      | none => simp [mergeStepSpec, mergeSpecVal, valsFor_cons_ne hkk]
      | some cur => simp [mergeStepSpec, valsFor_cons_ne hkk]

theorem mergeKV_eq_foldl_flatten (maps : List (List (String × JsonVal))) :
    mergeKV maps = maps.flatten.foldl mergeStep [] := by
  rw [mergeKV, List.foldl_flatten]

theorem dictGet_mergeKV (maps : List (List (String × JsonVal))) (k : String) :
    dictGet (mergeKV maps) k = mergeSpecVal maps.flatten k := by
  rw [mergeKV_eq_foldl_flatten, foldl_mergeStep_dictGet]
  rfl

theorem dictGet_append : ∀ (c d : List (String × JsonVal)) (k : String),
    dictGet (c ++ d) k =
      match dictGet c k with
      | some v => some v
      | none => dictGet d k
  | [], d, k => rfl
  | (a, b) :: c, d, k => by
    by_cases h : a = k
    · simp [dictGet, h]
    · simp only [List.cons_append, dictGet, if_neg h]
      exact dictGet_append c d k

theorem dictInsert_append : ∀ (c : List (String × JsonVal)) (k : String) (v : JsonVal),
    dictGet c k = none → dictInsert c k v = c ++ [(k, v)]
  | [], k, v, _ => rfl
  | (a, b) :: c, k, v, h => by
    by_cases hak : a = k
    · rw [dictGet, if_pos hak] at h
      exact absurd h (by simp)
    · rw [dictGet, if_neg hak] at h
      simp only [dictInsert, if_neg hak, List.cons_append, List.cons.injEq, true_and]
      exact dictInsert_append c k v h

theorem dictGet_of_nodup_mem : ∀ (m : List (String × JsonVal)),
    (m.map Prod.fst).Nodup → ∀ p ∈ m, dictGet m p.1 = some p.2
  | [], _, p, hp => absurd hp (List.not_mem_nil p)
  | (k, v) :: rest, hnd, p, hp => by
    rw [List.map_cons, List.nodup_cons] at hnd
    rcases List.mem_cons.mp hp with h | h
    · subst h
      simp [dictGet]
    · have hne : k ≠ p.1 := by
        intro he
        rw [he] at hnd
        exact hnd.1 (List.mem_map.mpr ⟨p, h, rfl⟩)
      rw [dictGet, if_neg hne]
      exact dictGet_of_nodup_mem rest hnd.2 p h

theorem foldl_mergeStep_disjoint : ∀ (m c : List (String × JsonVal)),
    (m.map Prod.fst).Nodup → (∀ p ∈ m, dictGet c p.1 = none) →
    m.foldl mergeStep c = c ++ m
  | [], c, _, _ => by simp
  | (k, v) :: m, c, hnd, hdisj => by
    rw [List.map_cons, List.nodup_cons] at hnd
    have hck : dictGet c k = none := hdisj (k, v) (List.mem_cons_self _ _)
    have hstep : mergeStep c (k, v) = c ++ [(k, v)] := by
      simp only [mergeStep, hck]
      exact dictInsert_append c k v hck
    rw [List.foldl_cons, hstep]
    rw [foldl_mergeStep_disjoint m (c ++ [(k, v)]) hnd.2 ?hdisj]
    · simp
    case hdisj =>
      intro p hp
      rw [dictGet_append]
      have hpk : p.1 ≠ k := by
        intro he
        apply hnd.1
        rw [← he]
        exact List.mem_map.mpr ⟨p, hp, rfl⟩
      rw [hdisj p (List.mem_cons_of_mem _ hp)]
      have hkp : ¬k = p.1 := fun he => hpk he.symm
      simp [dictGet, hkp]

theorem foldl_mergeStep_present : ∀ (m c : List (String × JsonVal)),
    (∀ p ∈ m, dictGet c p.1 = some p.2) → m.foldl mergeStep c = c
  | [], _, _ => rfl
  | (k, v) :: m, c, h => by
    have hk : dictGet c k = some v := h (k, v) (List.mem_cons_self _ _)
    have hstep : mergeStep c (k, v) = c := by
      simp [mergeStep, hk]
    rw [List.foldl_cons, hstep]
    exact foldl_mergeStep_present m c fun p hp => h p (List.mem_cons_of_mem _ hp)

theorem mergeKV_single {m : List (String × JsonVal)} (hnd : (m.map Prod.fst).Nodup) :
    mergeKV [m] = m := by
  have h1 : mergeKV [m] = m.foldl mergeStep [] := rfl
  rw [h1, foldl_mergeStep_disjoint m [] hnd (fun p _ => rfl)]
  rfl

theorem mergeKV_pair {m : List (String × JsonVal)} (hnd : (m.map Prod.fst).Nodup) :
    mergeKV [m, m] = mergeKV [m] := by
  have h1 : mergeKV [m, m] = m.foldl mergeStep (m.foldl mergeStep []) := rfl
  have h2 : m.foldl mergeStep [] = m := by
    rw [foldl_mergeStep_disjoint m [] hnd (fun p _ => rfl)]
    rfl
  rw [h1, h2, foldl_mergeStep_present m m (dictGet_of_nodup_mem m hnd)]
  rw [show mergeKV [m] = m.foldl mergeStep [] from rfl, h2]

theorem coerceNulls_no_null (kvs : List (String × JsonVal)) :
    ∀ p ∈ coerceNulls kvs, p.2 ≠ JsonVal.null := by
  intro p hp
  obtain ⟨q, _, rfl⟩ := List.mem_map.mp hp
  cases q.2 <;> simp

theorem parseStage_no_null {content : String} {kvs : List (String × JsonVal)}
    (h : parseStage content = Except.ok kvs) : ∀ p ∈ kvs, p.2 ≠ JsonVal.null := by
  unfold parseStage at h
  split at h
  · exact absurd h (by simp)
  · split at h
    · simp only [Except.ok.injEq] at h
      subst h
      exact coerceNulls_no_null _
    · exact absurd h (by simp)

theorem dictInsert_no_null {c : List (String × JsonVal)} {k : String} {v : JsonVal}
    (hc : ∀ q ∈ c, q.2 ≠ JsonVal.null) (hv : v ≠ JsonVal.null) :
    ∀ q ∈ dictInsert c k v, q.2 ≠ JsonVal.null := by
  induction c with
  | nil =>
    intro q hq
    rcases List.mem_singleton.mp hq with rfl
    exact hv
  | cons a c ih =>
    intro q hq
    by_cases hk : a.1 = k
    · obtain ⟨a1, a2⟩ := a
      simp only [dictInsert] at hq
      rw [if_pos hk] at hq
      rcases List.mem_cons.mp hq with rfl | hq
      · exact hv
      · exact hc q (List.mem_cons_of_mem _ hq)
    · obtain ⟨a1, a2⟩ := a
      simp only [dictInsert] at hq
      rw [if_neg hk] at hq
      rcases List.mem_cons.mp hq with rfl | hq
      · exact hc (a1, a2) (List.mem_cons_self _ _)
      · exact ih (fun r hr => hc r (List.mem_cons_of_mem _ hr)) q hq

theorem mergeStep_no_null {c : List (String × JsonVal)} {p : String × JsonVal}
    (hc : ∀ q ∈ c, q.2 ≠ JsonVal.null) (hp : p.2 ≠ JsonVal.null) :
    ∀ q ∈ mergeStep c p, q.2 ≠ JsonVal.null := by
  cases hd : dictGet c p.1 with
  | none =>
    have hs : mergeStep c p = dictInsert c p.1 p.2 := by simp [mergeStep, hd]
    rw [hs]
    exact dictInsert_no_null hc hp
  | some cur =>
    by_cases hb : (cur.isEmptyStr && !p.2.isEmptyStr) = true
    · have hs : mergeStep c p = dictInsert c p.1 p.2 := by simp [mergeStep, hd, hb]
      rw [hs]
      exact dictInsert_no_null hc hp
    · have hb' : (cur.isEmptyStr && !p.2.isEmptyStr) = false := by simpa using hb
      have hs : mergeStep c p = c := by simp [mergeStep, hd, hb']
      rw [hs]
      exact hc

theorem foldl_mergeStep_no_null :
    ∀ (pairs c : List (String × JsonVal)), (∀ q ∈ c, q.2 ≠ JsonVal.null) →
      (∀ q ∈ pairs, q.2 ≠ JsonVal.null) → ∀ q ∈ pairs.foldl mergeStep c, q.2 ≠ JsonVal.null
  | [], c, hc, _ => hc
  | p :: pairs, c, hc, hp => by
    rw [List.foldl_cons]
    exact foldl_mergeStep_no_null pairs (mergeStep c p)
      (mergeStep_no_null hc (hp p (List.mem_cons_self _ _)))
      (fun q hq => hp q (List.mem_cons_of_mem _ hq))

theorem mergeKV_no_null {maps : List (List (String × JsonVal))}
    (h : ∀ m ∈ maps, ∀ p ∈ m, p.2 ≠ JsonVal.null) :
    ∀ p ∈ mergeKV maps, p.2 ≠ JsonVal.null := by
  rw [mergeKV_eq_foldl_flatten]
  apply foldl_mergeStep_no_null maps.flatten [] (by simp)
  intro q hq
  obtain ⟨m, hm, hqm⟩ := List.mem_flatten.mp hq
  exact h m hm q hqm

theorem tenacityRun_no_retry {wait : Nat → Nat} {attempt : Nat → AttemptResult}
    {k : Nat} (rem : Nat) (h : retryOn (attempt k) = false) :
    tenacityRun wait attempt k rem = (attempt k, 1, []) := by
  cases rem with
  | zero => rfl
  | succ r => simp [tenacityRun, h]

theorem tenacityRun_count_le {wait : Nat → Nat} {attempt : Nat → AttemptResult} :
    ∀ (rem k : Nat), (tenacityRun wait attempt k rem).2.1 ≤ rem + 1
  | 0, _ => Nat.le_refl 1
  | rem + 1, k => by
    by_cases h : retryOn (attempt k) = true
    · simp only [tenacityRun, h, if_true]
      have := @tenacityRun_count_le wait attempt rem (k + 1)
      omega
    · have h' : retryOn (attempt k) = false := by simpa using h
      rw [tenacityRun_no_retry (rem + 1) h']
      exact Nat.succ_le_succ (Nat.zero_le (rem + 1))

theorem tenacityRun_all_retry {wait : Nat → Nat} {attempt : Nat → AttemptResult}
    (h : ∀ k, retryOn (attempt k) = true) :
    tenacityRun wait attempt 1 2 = (attempt 3, 3, [wait 1, wait 2]) := by
  simp [tenacityRun, h 1, h 2]

theorem waitExponential_bounds (n : Nat) :
    4 ≤ waitExponential 1 4 10 n ∧ waitExponential 1 4 10 n ≤ 10 := by
  rw [waitExponential]
  exact ⟨le_min (by omega) (le_max_left _ _), min_le_left _ _⟩

theorem forall2_map_rel {α β : Type} (R : α → β → Prop) (f : α → β) :
    ∀ l : List α, (∀ x ∈ l, R x (f x)) → List.Forall₂ R l (l.map f)
  | [], _ => List.Forall₂.nil
  | x :: l, h => by
    rw [List.map_cons]
    exact List.Forall₂.cons (h x (List.mem_cons_self x l))
      (forall2_map_rel R f l fun y hy => h y (List.mem_cons_of_mem x hy))

theorem stripLC_id : ∀ (l : List Char), hasDoubleSlash l = false → stripLC false l = l
  | [], _ => rfl
  | c :: rest, h => by
    have hparts := h
    simp only [hasDoubleSlash] at hparts
    rw [Bool.or_eq_false_iff] at hparts
    obtain ⟨hhead, htail⟩ := hparts
    by_cases hc : c = '/'
    · subst hc
      cases rest with
      | nil => rfl
      | cons r rest2 =>
        have hr : (r == '/') = false := by
          simp only [Bool.and_eq_false_iff] at hhead
          rcases hhead with h1 | h1
          · exact absurd h1 (by simp)
          · exact h1
        have hr' : ¬r = '/' := by simpa using hr
        have ht2 : hasDoubleSlash rest2 = false := by
          simp only [hasDoubleSlash] at htail
          rw [Bool.or_eq_false_iff] at htail
          exact htail.2
        simp [stripLC, if_neg hr', stripLC_id rest2 ht2]
    · simp only [stripLC, if_neg hc]
      rw [stripLC_id rest htail]

theorem hasCommaClose_append_false {a b : List Char}
    (h : hasCommaClose (a ++ b) = false) : hasCommaClose b = false := by
  induction a with
  | nil => exact h
  | cons c a ih =>
    rw [List.cons_append, hasCommaClose, Bool.or_eq_false_iff] at h
    exact ih h.2

theorem hasCommaClose_tail {c : Char} {rest : List Char}
    (h : hasCommaClose (c :: rest) = false) : hasCommaClose rest = false := by
  simp only [hasCommaClose] at h
  rw [Bool.or_eq_false_iff] at h
  exact h.2

theorem stripTC_id_gen : ∀ (l pending : List Char),
    (pending = [] ∨ ∃ ws, pending = ',' :: ws ∧ (∀ x ∈ ws, isPySpace x = true)) →
    hasCommaClose (pending ++ l) = false →
    stripTC pending l = pending ++ l
  | [], pending, _, _ => by simp [stripTC]
  | c :: rest, pending, hpend, h => by
    rcases hpend with hp | ⟨ws, hp, hws⟩
    · subst hp
      simp only [List.nil_append] at h ⊢
      by_cases hc : c = ','
      · subst hc
        have hrec := stripTC_id_gen rest [','] (Or.inr ⟨[], rfl, by simp⟩) (by simpa using h)
        simp only [stripTC, if_pos rfl]
        rw [hrec]
        rfl
      · simp only [stripTC, if_neg hc]
        rw [stripTC_id_gen rest [] (Or.inl rfl) (hasCommaClose_tail h)]
        simp
    · subst hp
      by_cases hbr : c = '\x7d' ∨ c = ']'
      · exfalso
        have hdrop : (ws ++ c :: rest).dropWhile isPySpace = c :: rest := by
          have hcs : isPySpace c = false := by
            rcases hbr with h1 | h1 <;> subst h1 <;> decide
          exact (takeWhile_append_all isPySpace ws c rest hws hcs).2
        have : hasCommaClose ((',' :: ws) ++ (c :: rest)) = true := by
          simp only [List.cons_append, hasCommaClose]
          rcases hbr with h1 | h1 <;> subst h1 <;> simp [hdrop]
        rw [h] at this
        exact Bool.false_ne_true this
      · simp only [stripTC]
        rw [if_neg hbr]
        by_cases hsp : isPySpace c = true
        · rw [if_pos hsp]
          have hrec := stripTC_id_gen rest ((',' :: ws) ++ [c])
            (Or.inr ⟨ws ++ [c], by simp, by
              intro x hx
              rcases List.mem_append.mp hx with h1 | h1
              · exact hws x h1
              · rw [List.mem_singleton.mp h1]
                exact hsp⟩)
            (by
              have he : ((',' :: ws) ++ [c]) ++ rest = (',' :: ws) ++ c :: rest := by simp
              rw [he]
              exact h)
          rw [hrec]
          simp
        · rw [if_neg hsp]
          have hsuffix : hasCommaClose (c :: rest) = false :=
            hasCommaClose_append_false h
          by_cases hc : c = ','
          · subst hc
            rw [if_pos rfl]
            rw [stripTC_id_gen rest [','] (Or.inr ⟨[], rfl, by simp⟩) (by simpa using hsuffix)]
            simp
          · rw [if_neg hc]
            rw [stripTC_id_gen rest [] (Or.inl rfl) (hasCommaClose_tail hsuffix)]
            simp

theorem mem_of_valsFor {pairs : List (String × JsonVal)} {k : String} {v : JsonVal}
    (h : v ∈ valsFor pairs k) : ∃ p ∈ pairs, p.1 = k := by
  obtain ⟨p, hp, _⟩ := List.mem_map.mp h
  have hf := List.of_mem_filter hp
  exact ⟨p, List.mem_of_mem_filter hp, by simpa using hf⟩

theorem mergeKV_key_source {maps : List (List (String × JsonVal))} {k : String}
    {v : JsonVal} (h : dictGet (mergeKV maps) k = some v) :
    ∃ m ∈ maps, ∃ p ∈ m, p.1 = k := by
  rw [dictGet_mergeKV, mergeSpecVal] at h
  have hv : ∃ w, w ∈ valsFor maps.flatten k := by
    cases hf : (valsFor maps.flatten k).find? (fun v => !v.isEmptyStr) with
    | some w => exact ⟨w, List.mem_of_find?_eq_some hf⟩
    | none =>
      rw [hf] at h
      cases hl : valsFor maps.flatten k with
      | nil => rw [hl] at h; exact absurd h (by simp)
      | cons w ws => exact ⟨w, hl ▸ List.mem_cons_self w ws⟩
  obtain ⟨w, hw⟩ := hv
  obtain ⟨p, hp, hpk⟩ := mem_of_valsFor hw
  obtain ⟨m, hm, hpm⟩ := List.mem_flatten.mp hp
  exact ⟨m, hm, p, hpm, hpk⟩

theorem stripLC_true_cons (c : Char) (rest : List Char) :
    stripLC true (c :: rest) =
      if c = '\n' then c :: stripLC false rest else stripLC true rest := rfl

theorem stripLC_false_one (c : Char) :
    stripLC false [c] = if c = '/' then [c] else c :: stripLC false [] := rfl

theorem stripLC_false_cons₂ (c r : Char) (rest2 : List Char) :
    stripLC false (c :: r :: rest2) =
      if c = '/' then
        (if r = '/' then stripLC true (r :: rest2) else c :: stripLC false (r :: rest2))
      else c :: stripLC false (r :: rest2) := rfl

theorem stripLC_length_le : ∀ (mode : Bool) (l : List Char),
    (stripLC mode l).length ≤ l.length
  | true, [] => Nat.le_refl 0
  | false, [] => Nat.le_refl 0
  | true, c :: rest => by
    rw [stripLC_true_cons]
    by_cases hc : c = '\n'
    · rw [if_pos hc, List.length_cons, List.length_cons]
      exact Nat.succ_le_succ (stripLC_length_le false rest)
    · rw [if_neg hc, List.length_cons]
      exact Nat.le_succ_of_le (stripLC_length_le true rest)
  | false, [c] => by
    rw [stripLC_false_one]
    by_cases hc : c = '/'
    · rw [if_pos hc]
    · rw [if_neg hc]
      exact Nat.le_refl 1
  | false, c :: r :: rest2 => by
    rw [stripLC_false_cons₂]
    by_cases hc : c = '/'
    · rw [if_pos hc]
      by_cases hr : r = '/'
      · rw [if_pos hr]
        exact le_trans (stripLC_length_le true (r :: rest2)) (by simp)
      · rw [if_neg hr, List.length_cons, List.length_cons]
        exact Nat.succ_le_succ (stripLC_length_le false (r :: rest2))
    · rw [if_neg hc, List.length_cons, List.length_cons]
      exact Nat.succ_le_succ (stripLC_length_le false (r :: rest2))

theorem hasDoubleSlash_cons₂ (c r : Char) (rest2 : List Char) :
    hasDoubleSlash (c :: r :: rest2) =
      ((c == '/' && r == '/') || hasDoubleSlash (r :: rest2)) := rfl

theorem stripLC_length_lt : ∀ (l : List Char), hasDoubleSlash l = true →
    (stripLC false l).length < l.length
  | [], h => by simp [hasDoubleSlash] at h
  | [c], h => by simp [hasDoubleSlash] at h
  | c :: r :: rest2, h => by
    rw [hasDoubleSlash_cons₂] at h
    rw [stripLC_false_cons₂]
    by_cases hc : c = '/'
    · rw [if_pos hc]
      by_cases hr : r = '/'
      · rw [if_pos hr]
        have e : stripLC true (r :: rest2) = stripLC true rest2 := by
          rw [stripLC_true_cons, if_neg (by rw [hr]; decide)]
        rw [e]
        have hle := stripLC_length_le true rest2
        simp only [List.length_cons]
        omega
      · have htail : hasDoubleSlash (r :: rest2) = true := by
          rcases Bool.or_eq_true_iff.mp h with h1 | h1
          · exact absurd (by simpa using (Bool.and_eq_true_iff.mp h1).2) hr
          · exact h1
        rw [if_neg hr, List.length_cons, List.length_cons]
        exact Nat.succ_lt_succ (stripLC_length_lt (r :: rest2) htail)
    · have htail : hasDoubleSlash (r :: rest2) = true := by
        rcases Bool.or_eq_true_iff.mp h with h1 | h1
        · exact absurd (by simpa using (Bool.and_eq_true_iff.mp h1).1) hc
        · exact h1
      rw [if_neg hc, List.length_cons, List.length_cons]
      exact Nat.succ_lt_succ (stripLC_length_lt (r :: rest2) htail)

theorem stripTC_nil_cons (c : Char) (rest : List Char) :
    stripTC [] (c :: rest) =
      (if c = ',' then stripTC [c] rest else c :: stripTC [] rest) := rfl

theorem stripTC_cons_cons (p0 c : Char) (ps rest : List Char) :
    stripTC (p0 :: ps) (c :: rest) =
      (if c = '\x7d' ∨ c = ']' then c :: stripTC [] rest
       else if isPySpace c then stripTC ((p0 :: ps) ++ [c]) rest
       else if c = ',' then (p0 :: ps) ++ stripTC [c] rest
       else (p0 :: ps) ++ c :: stripTC [] rest) := rfl

theorem hasCommaClose_cons (c : Char) (rest : List Char) :
    hasCommaClose (c :: rest) =
      ((c == ',' && (match rest.dropWhile isPySpace with
                     | b :: _ => b == '\x7d' || b == ']'
                     | [] => false)) || hasCommaClose rest) := rfl

theorem stripTC_length_le : ∀ (l pending : List Char),
    (stripTC pending l).length ≤ pending.length + l.length
  | [], pending => by simp [stripTC]
  | c :: rest, pending => by
    cases pending with
    | nil =>
      rw [stripTC_nil_cons]
      by_cases hc : c = ','
      · rw [if_pos hc]
        have h := stripTC_length_le rest [c]
        simp only [List.length_cons, List.length_nil] at h ⊢
        omega
      · rw [if_neg hc]
        have h := stripTC_length_le rest []
        simp only [List.length_cons, List.length_nil] at h ⊢
        omega
    | cons p0 ps =>
      rw [stripTC_cons_cons]
      by_cases hbr : c = '\x7d' ∨ c = ']'
      · rw [if_pos hbr]
        have h := stripTC_length_le rest []
        simp only [List.length_cons, List.length_nil] at h ⊢
        omega
      · rw [if_neg hbr]
        by_cases hsp : isPySpace c = true
        · rw [if_pos hsp]
          have h := stripTC_length_le rest ((p0 :: ps) ++ [c])
          simp only [List.length_append, List.length_cons, List.length_nil] at h ⊢
          omega
        · rw [if_neg hsp]
          by_cases hc : c = ','
          · rw [if_pos hc]
            have h := stripTC_length_le rest [c]
            simp only [List.length_append, List.length_cons, List.length_nil] at h ⊢
            omega
          · rw [if_neg hc]
            have h := stripTC_length_le rest []
            simp only [List.length_append, List.length_cons, List.length_nil] at h ⊢
            omega

theorem dropWhile_eq_nil_of_all {p : Char → Bool} : ∀ (ws : List Char),
    (∀ x ∈ ws, p x = true) → ws.dropWhile p = []
  | [], _ => rfl
  | w :: ws, h => by
    rw [List.dropWhile_cons, if_pos (h w (List.mem_cons_self w ws))]
    exact dropWhile_eq_nil_of_all ws fun x hx => h x (List.mem_cons_of_mem w hx)

theorem hasCommaClose_spaces : ∀ (ws l : List Char),
    (∀ x ∈ ws, isPySpace x = true) → hasCommaClose (ws ++ l) = hasCommaClose l
  | [], _, _ => rfl
  | w :: ws, l, h => by
    rw [List.cons_append, hasCommaClose_cons]
    have hw : (w == ',') = false := by
      by_cases hwc : w = ','
      · exfalso
        have hx := h w (List.mem_cons_self w ws)
        rw [hwc] at hx
        exact absurd hx (by decide)
      · simpa using hwc
    rw [hw, Bool.false_and, Bool.false_or]
    exact hasCommaClose_spaces ws l fun x hx => h x (List.mem_cons_of_mem w hx)

theorem hasCommaClose_spaces_nil (ws : List Char)
    (h : ∀ x ∈ ws, isPySpace x = true) : hasCommaClose ws = false := by
  have he := hasCommaClose_spaces ws [] h
  rw [List.append_nil] at he
  rw [he]
  rfl

theorem stripTC_length_lt : ∀ (l pending : List Char),
    (pending = [] ∨ ∃ ws, pending = ',' :: ws ∧ (∀ x ∈ ws, isPySpace x = true)) →
    hasCommaClose (pending ++ l) = true →
    (stripTC pending l).length < pending.length + l.length
  | [], pending, hpend, h => by
    exfalso
    rcases hpend with hp | ⟨ws, hp, hws⟩
    · subst hp
      simp [hasCommaClose] at h
    · subst hp
      rw [List.append_nil, hasCommaClose_cons, dropWhile_eq_nil_of_all ws hws,
        hasCommaClose_spaces_nil ws hws] at h
      simp at h
  | c :: rest, pending, hpend, h => by
    rcases hpend with hp | ⟨ws, hp, hws⟩
    · subst hp
      rw [List.nil_append] at h
      rw [stripTC_nil_cons]
      by_cases hc : c = ','
      · subst hc
        rw [if_pos rfl]
        have hrec := stripTC_length_lt rest [','] (Or.inr ⟨[], rfl, by simp⟩)
          (by simpa using h)
        simp only [List.length_cons, List.length_nil] at hrec ⊢
        omega
      · rw [if_neg hc]
        have htail : hasCommaClose rest = true := by
          rw [hasCommaClose_cons] at h
          rcases Bool.or_eq_true_iff.mp h with h1 | h1
          · exact absurd (by simpa using (Bool.and_eq_true_iff.mp h1).1) hc
          · exact h1
        have hrec := stripTC_length_lt rest [] (Or.inl rfl) (by simpa using htail)
        simp only [List.length_cons, List.length_nil] at hrec ⊢
        omega
    · subst hp
      rw [stripTC_cons_cons]
      by_cases hbr : c = '\x7d' ∨ c = ']'
      · rw [if_pos hbr]
        have hle := stripTC_length_le rest []
        simp only [List.length_cons, List.length_nil] at hle ⊢
        omega
      · rw [if_neg hbr]
        by_cases hsp : isPySpace c = true
        · rw [if_pos hsp]
          have hws2 : ∀ x ∈ ws ++ [c], isPySpace x = true := by
            intro x hx
            rcases List.mem_append.mp hx with h1 | h1
            · exact hws x h1
            · rw [List.mem_singleton.mp h1]
              exact hsp
          have hrec := stripTC_length_lt rest ((',' :: ws) ++ [c])
            (Or.inr ⟨ws ++ [c], by simp, hws2⟩)
            (by
              have he : ((',' :: ws) ++ [c]) ++ rest = (',' :: ws) ++ c :: rest := by
                simp
              rw [he]
              exact h)
          simp only [List.length_append, List.length_cons, List.length_nil] at hrec ⊢
          omega
        · rw [if_neg hsp]
          have hdrop : (ws ++ c :: rest).dropWhile isPySpace = c :: rest :=
            (takeWhile_append_all isPySpace ws c rest hws (by simpa using hsp)).2
          have hcc : hasCommaClose (c :: rest) = true := by
            rw [List.cons_append, hasCommaClose_cons] at h
            rcases Bool.or_eq_true_iff.mp h with h1 | h1
            · exfalso
              have h2 := (Bool.and_eq_true_iff.mp h1).2
              rw [hdrop] at h2
              rcases Bool.or_eq_true_iff.mp h2 with h3 | h3
              · exact hbr (Or.inl (by simpa using h3))
              · exact hbr (Or.inr (by simpa using h3))
            · rw [hasCommaClose_spaces ws (c :: rest) hws] at h1
              exact h1
          by_cases hc : c = ','
          · subst hc
            rw [if_pos rfl]
            have hrec := stripTC_length_lt rest [','] (Or.inr ⟨[], rfl, by simp⟩)
              (by simpa using hcc)
            simp only [List.length_append, List.length_cons, List.length_nil] at hrec ⊢
            omega
          · rw [if_neg hc]
            have htail : hasCommaClose rest = true := by
              rw [hasCommaClose_cons] at hcc
              rcases Bool.or_eq_true_iff.mp hcc with h1 | h1
              · exact absurd (by simpa using (Bool.and_eq_true_iff.mp h1).1) hc
              · exact h1
            have hrec := stripTC_length_lt rest [] (Or.inl rfl) (by simpa using htail)
            simp only [List.length_append, List.length_cons, List.length_nil] at hrec ⊢
            omega

theorem sanitizeJson_changes {s : List Char}
    (h : hasDoubleSlash s = true ∨ hasCommaClose s = true) :
    ¬ sanitizeJson s = s := by
  intro he
  have hlen : (sanitizeJson s).length < s.length := by
    by_cases hd : hasDoubleSlash s = true
    · have h1 : (stripLC false s).length < s.length := stripLC_length_lt s hd
      have h2 : (stripTC [] (stripLC false s)).length ≤ (stripLC false s).length := by
        have hx := stripTC_length_le (stripLC false s) []
        simpa using hx
      exact lt_of_le_of_lt h2 h1
    · have hd2 : hasDoubleSlash s = false := by simpa using hd
      have hcc : hasCommaClose s = true := h.resolve_left (by simp [hd2])
      have hid : stripLC false s = s := stripLC_id s hd2
      have hx := stripTC_length_lt s [] (Or.inl rfl) (by simpa using hcc)
      rw [sanitizeJson, stripTrailingCommas, stripLineComments, hid]
      simpa using hx
  rw [he] at hlen
  exact Nat.lt_irrefl _ hlen

/-- C1: the merge keeps, for each key, the first value seen, except that
a later non-empty value overwrites a stored empty-string value; once a
non-empty value is stored, no later value overwrites it — per key the
result is the first non-empty value supplied, else the first value —
and merging the two example maps produces X = "2", Y = "1". -/
theorem claim_C1_merge_first_non_empty :
    (∀ (maps : List (List (String × JsonVal))) (k : String),
      dictGet (mergeKV maps) k = mergeSpecVal maps.flatten k) ∧
    mergeKV [[("X", JsonVal.str ""), ("Y", JsonVal.str "1")],
             [("X", JsonVal.str "2"), ("Y", JsonVal.str "9")]] =
      [("X", JsonVal.str "2"), ("Y", JsonVal.str "1")] :=
  ⟨dictGet_mergeKV, rfl⟩

/-- C2: the scanner returns a sorted duplicate-free list of the field
names matching the bracketed uppercase pattern, collected from both
paragraph and table-cell texts: membership is equivalent to being a
regex match of some paragraph or cell text, every reported field is a
non-empty all-field-character token occurring bracketed in some text,
every bracketed all-field-character token of any text is reported, and
the concrete duplicate example yields exactly A and B. -/
theorem claim_C2_scanner :
    (∀ doc : Docx,
      (extract_template_fields doc).Sorted (fun a b => a ≤ b) ∧
      (extract_template_fields doc).Nodup ∧
      (∀ f, f ∈ extract_template_fields doc ↔
        ∃ t, (t ∈ doc.paragraphs ∨ t ∈ cellTexts doc) ∧ f ∈ findFields t) ∧
      (∀ f, f ∈ extract_template_fields doc →
        f.data ≠ [] ∧ (∀ c ∈ f.data, isFieldChar c = true) ∧
        ∃ t, (t ∈ doc.paragraphs ∨ t ∈ cellTexts doc) ∧
          occursIn ('[' :: (f.data ++ [']'])) t.data = true) ∧
      (∀ t f, (t ∈ doc.paragraphs ∨ t ∈ cellTexts doc) → f ≠ [] →
        (∀ c ∈ f, isFieldChar c = true) →
        occursIn ('[' :: (f ++ [']'])) t.data = true →
        String.mk f ∈ extract_template_fields doc)) ∧
    extract_template_fields ⟨["intro [A] mid [B]", "tail [A]"], [[["cell [A]"]]]⟩ =
      ["A", "B"] := by
  constructor
  · intro doc
    refine ⟨extract_sorted doc, extract_nodup doc, ?_, ?_, ?_⟩
    · intro f
      exact mem_extract_iff.trans mem_allMatches_iff
    · intro f hf
      obtain ⟨t, ht, hft⟩ := mem_allMatches_iff.mp (mem_extract_iff.mp hf)
      obtain ⟨hne, hall, hocc⟩ := findFieldsAux_sound t.data f hft
      exact ⟨hne, hall, t, ht, hocc⟩
    · intro t f ht hne hall hocc
      exact mem_extract_iff.mpr
        (mem_allMatches_iff.mpr ⟨t, ht, findFieldsAux_complete t.data f hne hall hocc⟩)
  · decide

/-- C2 witness: at a concrete document, the completeness component
reports the bracketed token, and the concrete duplicate example holds. -/
theorem claim_C2_scanner_witness :
    String.mk ['A'] ∈ extract_template_fields ⟨["see [A]"], []⟩ ∧
    extract_template_fields ⟨["intro [A] mid [B]", "tail [A]"], [[["cell [A]"]]]⟩ =
      ["A", "B"] :=
  ⟨(claim_C2_scanner.1 ⟨["see [A]"], []⟩).2.2.2.2 "see [A]" ['A']
      (Or.inl (List.mem_singleton_self _)) (by decide) (by decide) (by decide),
    claim_C2_scanner.2⟩

/-- C3 counterexample: with the map A maps-to "[B]", B maps-to "z" (in
that order), the only template occurrence [A] ends as "z" rather than
the map value "[B]": the filler substitutes keys sequentially and later
keys rescan the output of earlier replacements, so the claim that each
literal occurrence is replaced by its field's value fails as stated. -/
theorem claim_C3_counterexample :
    fillText [("A", JsonVal.str "[B]"), ("B", JsonVal.str "z")] "see [A]" = "see z" ∧
    ¬ fillText [("A", JsonVal.str "[B]"), ("B", JsonVal.str "z")] "see [A]" = "see [B]" :=
  ⟨by decide, by decide⟩

/-- C3 amended: the filler rewrites every paragraph and cell text by the
same text transformation; that transformation applies the map's keys
sequentially in dict order, each pass replacing every occurrence of the
current placeholder in the current text; a single-key map replaces all
its occurrences in one pass leaving the rest unchanged; a text
containing no placeholder of any map key is left unchanged (so absent
fields such as [UNKNOWN] survive literally); the two concrete spec
examples hold. -/
theorem claim_C3_filler_amended :
    (∀ (doc : Docx) (kvs : List (String × JsonVal)),
      (fill_template doc kvs).paragraphs = doc.paragraphs.map (fillText kvs) ∧
      (fill_template doc kvs).tables =
        doc.tables.map (fun t => t.map (fun row => row.map (fillText kvs)))) ∧
    (∀ (p : String × JsonVal) (kvs : List (String × JsonVal)) (t : String),
      fillText (p :: kvs) t =
        fillText kvs
          (if strIn (placeholderOf p.1) t then
            pyReplace t (placeholderOf p.1) (pyStr p.2)
          else t)) ∧
    (∀ (k : String) (v : JsonVal) (parts : List (List Char)),
      (∀ c ∈ k.data, c ≠ '[') →
      (∀ part ∈ parts, occursIn ('[' :: (k.data ++ [']'])) part = false) →
      fillText [(k, v)] (String.mk (joinSep ('[' :: (k.data ++ [']'])) parts)) =
        String.mk (joinSep (pyStr v).data parts)) ∧
    (∀ (kvs : List (String × JsonVal)) (t : String),
      (∀ p ∈ kvs, strIn (placeholderOf p.1) t = false) → fillText kvs t = t) ∧
    (fillText [("NAME", JsonVal.str "Acme")] "Dear [NAME], meet [NAME]." =
        "Dear Acme, meet Acme." ∧
      fillText [("NAME", JsonVal.str "Acme")] "Keep [UNKNOWN] here." =
        "Keep [UNKNOWN] here.") :=
  ⟨fun _ _ => ⟨rfl, rfl⟩,
   fun _ _ _ => rfl,
   fun k v parts hk hparts => fillText_single_joinSep k v parts hk hparts,
   fillText_id,
   by decide, by decide⟩

/-- C3 witness: the single-key replacement and the untouched-text
components at concrete inputs. -/
theorem claim_C3_filler_amended_witness :
    fillText [("NAME", JsonVal.str "Acme")]
        (String.mk (joinSep ('[' :: ("NAME".data ++ [']']))
          ["Dear ".data, ", meet ".data, ".".data])) =
      String.mk (joinSep (pyStr (JsonVal.str "Acme")).data
        ["Dear ".data, ", meet ".data, ".".data]) ∧
    fillText [("Z", JsonVal.num 9)] "no placeholder here" = "no placeholder here" :=
  ⟨claim_C3_filler_amended.2.2.1 "NAME" (JsonVal.str "Acme")
      ["Dear ".data, ", meet ".data, ".".data] (by decide) (by decide),
    claim_C3_filler_amended.2.2.2.1 [("Z", JsonVal.num 9)] "no placeholder here"
      (by decide)⟩

/-- C4 counterexample: for the spec's example response the parse stage
returns B as the JSON number 5, not the string "5": non-string values
are not coerced to text at this stage. -/
theorem claim_C4_counterexample :
    parseStage "Here is the data:\n\x7b\"A\": \"foo\", \"B\": 5,\x7d\nThanks!" =
      Except.ok [("A", JsonVal.str "foo"), ("B", JsonVal.num 5)] ∧
    (JsonVal.num 5).isStr = false :=
  ⟨rfl, rfl⟩

/-- C4 amended: after the parse stage succeeds no value is JSON null
(null is coerced to the empty string); all other values are kept exactly
as decoded, so non-string JSON values stay non-strings (they are
stringified only later, by the filler); for the example response the
trailing comma is stripped, the block parses, and the returned map is
A = "foo", B = the number 5; a null value comes back as "". -/
theorem claim_C4_parse_amended :
    (∀ (content : String) (kvs : List (String × JsonVal)),
      parseStage content = Except.ok kvs → ∀ p ∈ kvs, p.2 ≠ JsonVal.null) ∧
    parseStage "Here is the data:\n\x7b\"A\": \"foo\", \"B\": 5,\x7d\nThanks!" =
      Except.ok [("A", JsonVal.str "foo"), ("B", JsonVal.num 5)] ∧
    parseStage "\x7b\"A\": null\x7d" = Except.ok [("A", JsonVal.str "")] :=
  ⟨fun _ _ h => parseStage_no_null h, rfl, rfl⟩

/-- C4 witness: the no-null component applied to the concrete null
example. -/
theorem claim_C4_parse_amended_witness :
    ("A", JsonVal.str "").2 ≠ JsonVal.null :=
  claim_C4_parse_amended.1 "\x7b\"A\": null\x7d" [("A", JsonVal.str "")]
    claim_C4_parse_amended.2.2 ("A", JsonVal.str "") (List.mem_singleton_self _)

/-- C5 counterexample: for two non-empty pages the extractor returns
"a\nb\n", which is not the page texts joined by a newline separator —
the newline is a terminator after every contributing page, leaving a
trailing newline. -/
theorem claim_C5_counterexample :
    extract_text_from_pdf [some "a", some "b"] = "a\nb\n" ∧
    ¬ extract_text_from_pdf [some "a", some "b"] = String.intercalate "\n" ["a", "b"] :=
  ⟨rfl, by decide⟩

/-- C5 amended: when every page yields non-empty text the result is the
concatenation of each page text followed by a newline (newline as
terminator, in page order); a page yielding no text, or empty text,
contributes nothing; and the result is empty when no page yields text. -/
theorem claim_C5_pdf_amended :
    (∀ texts : List String, (∀ t ∈ texts, t ≠ "") →
      extract_text_from_pdf (texts.map some) =
        joinAll (texts.map (fun t => t ++ "\n"))) ∧
    (∀ (p q : List (Option String)) (x : Option String), x = none ∨ x = some "" →
      extract_text_from_pdf (p ++ x :: q) = extract_text_from_pdf (p ++ q)) ∧
    (∀ pages : List (Option String), (∀ x ∈ pages, x = none ∨ x = some "") →
      extract_text_from_pdf pages = "") ∧
    extract_text_from_pdf [some "a", some "b"] = "a\nb\n" :=
  ⟨extract_text_all_nonempty, extract_text_skip, extract_text_all_blank, rfl⟩

/-- C5 witness: the three conditional components at concrete pages. -/
theorem claim_C5_pdf_amended_witness :
    extract_text_from_pdf (["a", "b"].map some) =
      joinAll (["a", "b"].map (fun t => t ++ "\n")) ∧
    extract_text_from_pdf ([some "x"] ++ none :: [some "y"]) =
      extract_text_from_pdf ([some "x"] ++ [some "y"]) ∧
    extract_text_from_pdf [none, some ""] = "" :=
  ⟨claim_C5_pdf_amended.1 ["a", "b"] (by decide),
   claim_C5_pdf_amended.2.1 [some "x"] [some "y"] none (Or.inl rfl),
   claim_C5_pdf_amended.2.2.1 [none, some ""] (by decide)⟩

/-- C6: the configured retry loop makes up to 3 attempts, retried only
on the two transport failures, with exponential backoff of multiplier 1
clamped between 4 and 10 time-units; a content failure (no JSON block,
or a decode failure) on the first attempt is returned immediately with
no retry, and content outcomes are never retryable; a response with no
braces at all is the no-JSON-block content failure. -/
theorem claim_C6_retry_policy :
    (∀ (attempt : Nat → AttemptResult) (e : ContentError),
      attempt 1 = AttemptResult.contentError e →
      get_extracted_data_run attempt = (AttemptResult.contentError e, 1, [])) ∧
    (∀ (attempt : Nat → AttemptResult) (m : List (String × JsonVal)),
      attempt 1 = AttemptResult.ok m →
      get_extracted_data_run attempt = (AttemptResult.ok m, 1, [])) ∧
    (∀ attempt : Nat → AttemptResult, (get_extracted_data_run attempt).2.1 ≤ 3) ∧
    (∀ attempt : Nat → AttemptResult, (∀ k, retryOn (attempt k) = true) →
      get_extracted_data_run attempt =
        (attempt 3, 3, [waitExponential 1 4 10 1, waitExponential 1 4 10 2])) ∧
    (∀ n : Nat, 4 ≤ waitExponential 1 4 10 n ∧ waitExponential 1 4 10 n ≤ 10) ∧
    (∀ content : String, retryOn (contentOutcome content) = false) ∧
    (retryOn AttemptResult.httpError = true ∧
      retryOn AttemptResult.connectionError = true) ∧
    parseStage "no braces at all" = Except.error ContentError.noJsonBlock := by
  refine ⟨?_, ?_, ?_, ?_, waitExponential_bounds, ?_, ⟨rfl, rfl⟩, rfl⟩
  · intro attempt e h
    have hr := @tenacityRun_no_retry (waitExponential 1 4 10) attempt 1 2 (by rw [h]; rfl)
    rw [h] at hr
    exact hr
  · intro attempt m h
    have hr := @tenacityRun_no_retry (waitExponential 1 4 10) attempt 1 2 (by rw [h]; rfl)
    rw [h] at hr
    exact hr
  · intro attempt
    exact tenacityRun_count_le 2 1
  · intro attempt h
    exact tenacityRun_all_retry h
  · intro content
    unfold contentOutcome
    split <;> rfl

/-- C6 witness: a permanently content-failing attempt makes exactly one
call; a permanently transport-failing attempt makes three calls with
clamped waits of 4 and 4; the attempt count never exceeds 3. -/
theorem claim_C6_retry_policy_witness :
    get_extracted_data_run (fun _ => AttemptResult.contentError ContentError.noJsonBlock) =
      (AttemptResult.contentError ContentError.noJsonBlock, 1, []) ∧
    get_extracted_data_run (fun _ => AttemptResult.httpError) =
      (AttemptResult.httpError, 3, [4, 4]) ∧
    (get_extracted_data_run (fun _ => AttemptResult.connectionError)).2.1 ≤ 3 :=
  ⟨claim_C6_retry_policy.1 _ ContentError.noJsonBlock rfl,
   by
     rw [claim_C6_retry_policy.2.2.2.1 (fun _ => AttemptResult.httpError) (fun _ => rfl)]
     rfl,
   claim_C6_retry_policy.2.2.1 _⟩

/-- C7 counterexample: with a template whose only field is A, a model
response supplying key ZZZ with the number 5 passes the parse stage
unchanged: the returned map's key is not a discovered template field and
its value is not a string, so the claimed invariant fails. -/
theorem claim_C7_counterexample :
    extract_template_fields ⟨["give [A]"], []⟩ = ["A"] ∧
    parseStage "\x7b\"ZZZ\": 5\x7d" = Except.ok [("ZZZ", JsonVal.num 5)] ∧
    ¬ ("ZZZ" ∈ extract_template_fields ⟨["give [A]"], []⟩) ∧
    (JsonVal.num 5).isStr = false :=
  ⟨by decide, rfl, by decide, rfl⟩

/-- C7 amended: the pipeline's maps satisfy a weaker invariant — no
value is JSON null (null is coerced to the empty string), the merge
preserves that property, and every key of the merged map was supplied by
one of the per-report maps; keys are not validated against the template
fields and values are not coerced to strings. -/
theorem claim_C7_invariant_amended :
    (∀ (content : String) (kvs : List (String × JsonVal)),
      parseStage content = Except.ok kvs → ∀ p ∈ kvs, p.2 ≠ JsonVal.null) ∧
    (∀ maps : List (List (String × JsonVal)),
      (∀ m ∈ maps, ∀ p ∈ m, p.2 ≠ JsonVal.null) →
      ∀ p ∈ mergeKV maps, p.2 ≠ JsonVal.null) ∧
    (∀ (maps : List (List (String × JsonVal))) (k : String) (v : JsonVal),
      dictGet (mergeKV maps) k = some v → ∃ m ∈ maps, ∃ p ∈ m, p.1 = k) :=
  ⟨fun _ _ h => parseStage_no_null h,
   fun _ h => mergeKV_no_null h,
   fun _ _ _ h => mergeKV_key_source h⟩

/-- C7 witness: the three components at concrete inputs. -/
theorem claim_C7_invariant_amended_witness :
    ("ZZZ", JsonVal.num 5).2 ≠ JsonVal.null ∧
    (("K", JsonVal.num 1).2 ≠ JsonVal.null) ∧
    ∃ m ∈ [[("K", JsonVal.num 1)]], ∃ p ∈ m, p.1 = "K" :=
  ⟨claim_C7_invariant_amended.1 "\x7b\"ZZZ\": 5\x7d" [("ZZZ", JsonVal.num 5)] rfl
      ("ZZZ", JsonVal.num 5) (List.mem_singleton_self _),
   claim_C7_invariant_amended.2.1 [[("K", JsonVal.num 1)]]
      (by
        intro m hm p hp
        rw [List.mem_singleton.mp hm] at hp
        rw [List.mem_singleton.mp hp]
        simp)
      ("K", JsonVal.num 1) (by rw [show mergeKV [[("K", JsonVal.num 1)]] =
        [("K", JsonVal.num 1)] from rfl]; exact List.mem_singleton_self _),
   claim_C7_invariant_amended.2.2 [[("K", JsonVal.num 1)]] "K" (JsonVal.num 1) rfl⟩

/-- C8 counterexample: the span of a valid strict-JSON response whose
string value contains two slashes decodes to A = "x//y", yet its
sanitization deletes from the slashes to the end of the line and the
result no longer parses: sanitization is not the identity on all
accepted strict-JSON inputs. -/
theorem claim_C8_counterexample :
    extractJsonSpan ("reply: \x7b\"A\": \"x//y\"\x7d done".data) =
      some ("\x7b\"A\": \"x//y\"\x7d".data) ∧
    json_loads ("\x7b\"A\": \"x//y\"\x7d".data) =
      some (JsonVal.obj [("A", JsonVal.str "x//y")]) ∧
    json_loads (sanitizeJson ("\x7b\"A\": \"x//y\"\x7d".data)) = none :=
  ⟨rfl, rfl, rfl⟩

/-- C8 amended: the repair step is purely textual — it deletes from
every pair of consecutive slashes to the end of the line and collapses
every comma, optionally followed by whitespace (the full Python regex
class backslash-s, Unicode whitespace included), before a closing
bracket, even inside string literals — so sanitization is the identity
if and only if the block contains neither pattern anywhere, and on
those pattern-free blocks the decoded object is unchanged; the two
accepted deviations are stripped, and a valid strict-JSON block whose
string value contains a comma and a no-break space before a bracket is
corrupted, as the concrete examples show. -/
theorem claim_C8_sanitize_amended :
    (∀ s : List Char,
      (sanitizeJson s = s ↔ (hasDoubleSlash s = false ∧ hasCommaClose s = false)) ∧
      (hasDoubleSlash s = false → hasCommaClose s = false →
        json_loads (sanitizeJson s) = json_loads s)) ∧
    sanitizeJson ("\x7b\"A\": 1,\x7d".data) = ("\x7b\"A\": 1\x7d".data) ∧
    sanitizeJson ("\x7b\"A\": 1 // note\n\x7d".data) = ("\x7b\"A\": 1 \n\x7d".data) ∧
    json_loads ("\x7b\"A\": \"a,\xa0\x7d\"\x7d".data) =
      some (JsonVal.obj [("A", JsonVal.str "a,\xa0\x7d")]) ∧
    sanitizeJson ("\x7b\"A\": \"a,\xa0\x7d\"\x7d".data) = ("\x7b\"A\": \"a\x7d\"\x7d".data) := by
  have hid : ∀ s : List Char, hasDoubleSlash s = false → hasCommaClose s = false →
      sanitizeJson s = s := by
    intro s h1 h2
    rw [sanitizeJson, stripLineComments, stripLC_id s h1, stripTrailingCommas]
    have := stripTC_id_gen s [] (Or.inl rfl) (by simpa using h2)
    simpa using this
  refine ⟨?_, rfl, rfl, rfl, rfl⟩
  intro s
  refine ⟨⟨?_, fun h => hid s h.1 h.2⟩, fun h1 h2 => by rw [hid s h1 h2]⟩
  intro he
  by_contra hcon
  apply sanitizeJson_changes ?_ he
  rcases Bool.eq_false_or_eq_true (hasDoubleSlash s) with hd | hd
  · exact Or.inl hd
  · rcases Bool.eq_false_or_eq_true (hasCommaClose s) with hc | hc
    · exact Or.inr hc
    · exact absurd ⟨hd, hc⟩ hcon

/-- C8 witness: a pattern-free strict-JSON block is fixed by
sanitization, and its decoding is unchanged. -/
theorem claim_C8_sanitize_amended_witness :
    sanitizeJson ("\x7b\"A\": \"ok\"\x7d".data) = ("\x7b\"A\": \"ok\"\x7d".data) ∧
    json_loads (sanitizeJson ("\x7b\"A\": \"ok\"\x7d".data)) =
      json_loads ("\x7b\"A\": \"ok\"\x7d".data) :=
  ⟨(claim_C8_sanitize_amended.1 ("\x7b\"A\": \"ok\"\x7d".data)).1.mpr ⟨by decide, by decide⟩,
   (claim_C8_sanitize_amended.1 ("\x7b\"A\": \"ok\"\x7d".data)).2 (by decide) (by decide)⟩

/-- C9: filling changes only text content — the paragraph count, the
table count, and the per-table row and cell counts are identical
between input and output, and positionally each paragraph or cell whose
text contains no placeholder of a map key keeps its exact original
text. -/
theorem claim_C9_fill_frame (doc : Docx) (kvs : List (String × JsonVal)) :
    (fill_template doc kvs).paragraphs.length = doc.paragraphs.length ∧
    (fill_template doc kvs).tables.length = doc.tables.length ∧
    (fill_template doc kvs).tables.map (fun t => t.map List.length) =
      doc.tables.map (fun t => t.map List.length) ∧
    List.Forall₂
      (fun old new => (∀ p ∈ kvs, strIn (placeholderOf p.1) old = false) → new = old)
      doc.paragraphs (fill_template doc kvs).paragraphs ∧
    List.Forall₂ (List.Forall₂ (List.Forall₂
      (fun old new => (∀ p ∈ kvs, strIn (placeholderOf p.1) old = false) → new = old)))
      doc.tables (fill_template doc kvs).tables := by
  refine ⟨by simp [fill_template], by simp [fill_template], ?_, ?_, ?_⟩
  · simp [fill_template, List.map_map, Function.comp_def]
  · exact forall2_map_rel _ _ doc.paragraphs
      (fun t _ hno => fillText_id kvs t hno)
  · apply forall2_map_rel _ _ doc.tables
    intro tab _
    apply forall2_map_rel _ _ tab
    intro row _
    exact forall2_map_rel _ _ row (fun t _ hno => fillText_id kvs t hno)

/-- C9 witness: the frame conditions at a concrete document and map,
with the positional text-preservation extracted for a placeholder-free
paragraph. -/
theorem claim_C9_fill_frame_witness :
    (fill_template ⟨["plain", "with [K]"], [[["c1", "c2"]]]⟩
        [("K", JsonVal.str "v")]).paragraphs.length = 2 ∧
    (fill_template ⟨["plain", "with [K]"], [[["c1", "c2"]]]⟩
        [("K", JsonVal.str "v")]).tables.map (fun t => t.map List.length) = [[2]] := by
  have h := claim_C9_fill_frame ⟨["plain", "with [K]"], [[["c1", "c2"]]]⟩
    [("K", JsonVal.str "v")]
  exact ⟨h.1, h.2.2.1⟩

/-- C10: merging a single map with duplicate-free keys returns that map
unchanged, and merging the same map twice equals merging it once. -/
theorem claim_C10_merge_idempotent (m : List (String × JsonVal))
    (hnd : (m.map Prod.fst).Nodup) :
    mergeKV [m] = m ∧ mergeKV [m, m] = mergeKV [m] :=
  ⟨mergeKV_single hnd, mergeKV_pair hnd⟩

/-- C10 witness: idempotence at a concrete two-field map. -/
theorem claim_C10_merge_idempotent_witness :
    mergeKV [[("X", JsonVal.str ""), ("Y", JsonVal.str "1")]] =
      [("X", JsonVal.str ""), ("Y", JsonVal.str "1")] ∧
    mergeKV [[("X", JsonVal.str ""), ("Y", JsonVal.str "1")],
             [("X", JsonVal.str ""), ("Y", JsonVal.str "1")]] =
      mergeKV [[("X", JsonVal.str ""), ("Y", JsonVal.str "1")]] :=
  claim_C10_merge_idempotent [("X", JsonVal.str ""), ("Y", JsonVal.str "1")] (by decide)
